import Mathlib

/-!
# Verification of the VIO core (IMU pre-integration + EKF fusion)

A shallow embedding, with real-number semantics for the floating-point
arithmetic, of the two core numerical modules of the repository:

* `python-dev/vio/imu_processor.py` — class `IMUProcessor`
  (`preintegrate`, the merge-by-timestamp integration loop, bias
  subtraction and gravity compensation);
* `vio/ekf_fusion_engine.py` — class `EKFFusionEngine`
  (16-D state, 16×16 covariance, `predict`, `update`,
  `_compute_state_transition_matrix`).

`scipy.spatial.transform.Rotation` objects are embedded as quaternions in
scalar-first order (`Quat`): scipy stores a normalized quaternion,
composes rotations by the Hamilton product, applies them through the
standard rotation matrix, and `Rotation.from_quat` raises on a zero-norm
input (embedded as an `Option` failure).  Fallible numpy operations
(`np.linalg.inv` raising `LinAlgError` on a singular matrix) are embedded
by returning `none`; a method that raises leaves the Python object
unmutated, which `runUpdate`/`stepCall` capture with `Option.getD`.
Real division by zero (where numpy would produce `nan`/`inf`) is the
Lean convention `x / 0 = 0`; no theorem below depends on the value of a
division by zero beyond it not being a unit-norm quaternion.
-/

noncomputable section

set_option maxRecDepth 2000

open scoped Matrix

/-- 3-vectors (`np.ndarray` of shape `(3,)`). -/
abbrev V3 : Type := Fin 3 → ℝ

/-- Quaternions in the `[w, x, y, z]` scalar-first convention used by the
EKF state vector.  `scipy` stores `[x, y, z, w]`; the code converts at
every boundary, and the two reorderings compose to the identity, so the
embedding keeps a single convention. -/
@[ext]
structure Quat where
  w : ℝ
  x : ℝ
  y : ℝ
  z : ℝ

namespace Quat

/-- The identity rotation `Rotation.identity()`, quaternion `[1,0,0,0]`. -/
def one : Quat := ⟨1, 0, 0, 0⟩

/-- Hamilton product: the quaternion of the scipy composition `p * q`
(apply `q` first, then `p`). -/
def mul (p q : Quat) : Quat :=
  ⟨p.w * q.w - p.x * q.x - p.y * q.y - p.z * q.z,
   p.w * q.x + p.x * q.w + p.y * q.z - p.z * q.y,
   p.w * q.y - p.x * q.z + p.y * q.w + p.z * q.x,
   p.w * q.z + p.x * q.y - p.y * q.x + p.z * q.w⟩

/-- Quaternion conjugate: `Rotation.inv()` for the stored (unit) quaternion. -/
def inv (q : Quat) : Quat := ⟨q.w, -q.x, -q.y, -q.z⟩

/-- Squared Euclidean norm of the four components. -/
def normSq (q : Quat) : ℝ := q.w ^ 2 + q.x ^ 2 + q.y ^ 2 + q.z ^ 2

/-- Euclidean norm (`np.linalg.norm` of the 4 components). -/
def norm (q : Quat) : ℝ := Real.sqrt q.normSq

/-- Normalization performed by `Rotation.from_quat` on its input. -/
def normalize (q : Quat) : Quat := ⟨q.w / q.norm, q.x / q.norm, q.y / q.norm, q.z / q.norm⟩

/-- `Rotation.apply`: rotate a vector by the rotation matrix of the stored
(unit) quaternion. -/
def apply (q : Quat) (v : V3) : V3 :=
  ![(1 - 2 * (q.y ^ 2 + q.z ^ 2)) * v 0 + 2 * (q.x * q.y - q.z * q.w) * v 1
      + 2 * (q.x * q.z + q.y * q.w) * v 2,
    2 * (q.x * q.y + q.z * q.w) * v 0 + (1 - 2 * (q.x ^ 2 + q.z ^ 2)) * v 1
      + 2 * (q.y * q.z - q.x * q.w) * v 2,
    2 * (q.x * q.z - q.y * q.w) * v 0 + 2 * (q.y * q.z + q.x * q.w) * v 1
      + (1 - 2 * (q.x ^ 2 + q.y ^ 2)) * v 2]

/-- `Rotation.from_rotvec`: the exponential map.  At `v = 0` the scale
`sin(θ/2)/θ` is `0/0 = 0` in the embedding and the result is the identity
quaternion, as in scipy. -/
def fromRotvec (v : V3) : Quat :=
  let θ := Real.sqrt (v 0 ^ 2 + v 1 ^ 2 + v 2 ^ 2)
  let s := Real.sin (θ / 2) / θ
  ⟨Real.cos (θ / 2), s * v 0, s * v 1, s * v 2⟩

end Quat

/-- A timestamped IMU sample `(timestamp, reading)`. -/
abbrev Sample : Type := ℝ × V3

/-- Stable insertion into a time-sorted list (by first component). -/
def insertByTime (x : Sample) : List Sample → List Sample
  | [] => [x]
  | y :: ys => if x.1 ≤ y.1 then x :: y :: ys else y :: insertByTime x ys

/-- Python's stable `sorted(measurements, key=lambda m: m[0])`. -/
def sortByTime (l : List Sample) : List Sample := l.foldr insertByTime []

/-- The configuration of `IMUProcessor.__init__`: bias estimates and the
world gravity vector. -/
structure IMUProcessor where
  gyro_bias : V3
  accel_bias : V3
  gravity : V3

/-- Default gravity vector `[0, 0, -9.81]`. -/
def defaultGravity : V3 := ![0, 0, -(981 / 100)]

/-- `IMUProcessor()` with all-default arguments: zero biases. -/
def defaultIMU : IMUProcessor := ⟨fun _ => 0, fun _ => 0, defaultGravity⟩

/-- The integration accumulators (`reset_integration` state) together
with the loop-local running orientation `current_rotation`. -/
structure IntegState where
  dp : V3
  dv : V3
  rot : Quat
  dtT : ℝ

/-- One integration step of the `preintegrate` while-loop body (the part
after `dt` has been found positive): bias subtraction, small-angle
rotation increment, gravity compensation, velocity first, then position
from the already-updated velocity. -/
def integStep (p : IMUProcessor) (gyro accel : V3) (dt : ℝ) (st : IntegState) : IntegState :=
  let gyro_corrected := gyro - p.gyro_bias
  let accel_corrected := accel - p.accel_bias
  let delta_rot := Quat.fromRotvec (dt • gyro_corrected)
  let current_rotation := Quat.mul st.rot delta_rot
  let accel_world := Quat.apply current_rotation accel_corrected - p.gravity
  let dv2 := st.dv + dt • accel_world
  { dp := st.dp + dt • dv2 + ((1 / 2) * dt * dt) • accel_world,
    dv := dv2,
    rot := current_rotation,
    dtT := st.dtT + dt }

/-- Out-of-range list access default (never reached under the loop guard). -/
def dSample : Sample := (0, fun _ => 0)

/-- The `while gyro_idx < len(gyro)-1 and accel_idx < len(accel)-1` merge
loop of `preintegrate`, indices advanced exactly as in the source
(`gyro_idx += 1` when the next gyro stamp is `<=` the next accel stamp,
else `accel_idx += 1`; steps with `dt <= 0` are skipped). -/
def integLoop (p : IMUProcessor) (gl al : List Sample) (g a : ℕ) (st : IntegState) : IntegState :=
  if hga : g < gl.length - 1 ∧ a < al.length - 1 then
    let tg := (gl.getD g dSample).1
    let gyro := (gl.getD g dSample).2
    let ta := (al.getD a dSample).1
    let accel := (al.getD a dSample).2
    let tgn := (gl.getD (g + 1) dSample).1
    let tan := (al.getD (a + 1) dSample).1
    let tnext := min tgn tan
    let dt := tnext - min tg ta
    if dt ≤ 0 then
      if tgn ≤ tan then integLoop p gl al (g + 1) a st else integLoop p gl al g (a + 1) st
    else
      let st2 := integStep p gyro accel dt st
      if tgn ≤ tan then integLoop p gl al (g + 1) a st2 else integLoop p gl al g (a + 1) st2
  else st
termination_by (gl.length - g) + (al.length - a)
decreasing_by all_goals omega

/-- `IMUProcessor.preintegrate`: reset accumulators, default the initial
rotation to the identity, sort both streams by timestamp, run the merge
loop from indices `(0, 0)`, and return
`(delta_position, delta_velocity, initial_rotation.inv() * current_rotation)`. -/
def IMUProcessor.preintegrate (p : IMUProcessor) (gyro_measurements accel_measurements : List Sample)
    (initial_rotation : Option Quat) : V3 × V3 × Quat :=
  let init := initial_rotation.getD Quat.one
  let gl := sortByTime gyro_measurements
  let al := sortByTime accel_measurements
  let final := integLoop p gl al 0 0 ⟨fun _ => 0, fun _ => 0, init, 0⟩
  (final.dp, final.dv, Quat.mul (Quat.inv init) final.rot)

/-- The filter's data: 16-D state, 16×16 covariance, process noise `Q`,
measurement noise `R` (all owned by `EKFFusionEngine`). -/
structure EKFFusionEngine where
  state : Fin 16 → ℝ
  covariance : Matrix (Fin 16) (Fin 16) ℝ
  Q : Matrix (Fin 16) (Fin 16) ℝ
  R : Matrix (Fin 7) (Fin 7) ℝ

/-- Default initial state: zeros with unit quaternion `[1,0,0,0]` in
components 6..9. -/
def defaultState : Fin 16 → ℝ := fun i => if (i : ℕ) = 6 then 1 else 0

/-- Default initial covariance `np.eye(16) * 0.1`. -/
def defaultCovariance : Matrix (Fin 16) (Fin 16) ℝ := (1 / 10 : ℝ) • 1

/-- Diagonal of the default process noise `Q` after the per-block scaling
of `__init__`. -/
def qScale : Fin 16 → ℝ := fun i =>
  if (i : ℕ) < 3 then 1 / 100
  else if (i : ℕ) < 6 then 1 / 100
  else if (i : ℕ) < 10 then 1 / 1000
  else if (i : ℕ) < 13 then 1 / 10000
  else 1 / 1000

/-- Default process noise covariance. -/
def defaultQ : Matrix (Fin 16) (Fin 16) ℝ := Matrix.diagonal qScale

/-- Diagonal of the default measurement noise `R`(position block `0.01`,
orientation block `0.001`). -/
def rScale : Fin 7 → ℝ := fun m => if (m : ℕ) < 3 then 1 / 100 else 1 / 1000

/-- Default measurement noise covariance. -/
def defaultR : Matrix (Fin 7) (Fin 7) ℝ := Matrix.diagonal rScale

/-- `EKFFusionEngine()` with all-default construction arguments. -/
def defaultEngine : EKFFusionEngine := ⟨defaultState, defaultCovariance, defaultQ, defaultR⟩

/-- `_compute_state_transition_matrix`: identity plus the
position-from-velocity block `F[0:3, 3:6] = eye(3) * dt`. -/
def Fmat (dt : ℝ) : Matrix (Fin 16) (Fin 16) ℝ :=
  Matrix.of fun i j =>
    if i = j then 1 else if (i : ℕ) < 3 ∧ (j : ℕ) = (i : ℕ) + 3 then dt else 0

/-- The measurement matrix `H` (7×16): identity block selecting position
(`H[0:3, 0:3] = eye(3)`) and quaternion (`H[3:7, 6:10] = eye(4)`). -/
def Hmat : Matrix (Fin 7) (Fin 16) ℝ :=
  Matrix.of fun l m =>
    if (l : ℕ) < 3 ∧ (m : ℕ) = (l : ℕ) then 1
    else if 3 ≤ (l : ℕ) ∧ (m : ℕ) = (l : ℕ) + 3 then 1
    else 0

/-- The state index observed by measurement row `l`: `l` for the position
rows, `l + 3` (i.e. state components 6..9) for the quaternion rows. -/
def obs (l : ℕ) : ℕ := if l < 3 then l else l + 3

/-- `obs` packaged as a map `Fin 7 → Fin 16`. -/
def obsFin (l : Fin 7) : Fin 16 := ⟨obs l.1, by have := l.2; unfold obs; split <;> omega⟩

/-- The quaternion block `state[6:10]` of a state vector. -/
def stateQuat (s : Fin 16 → ℝ) : Quat := ⟨s 6, s 7, s 8, s 9⟩

/-- `np.linalg.norm(state[6:10])`. -/
def quatBlockNorm (s : Fin 16 → ℝ) : ℝ :=
  Real.sqrt (s 6 ^ 2 + s 7 ^ 2 + s 8 ^ 2 + s 9 ^ 2)

/-- The statement `self.state[6:10] /= np.linalg.norm(self.state[6:10])`
shared by `predict` and `update`. -/
def renormQuatBlock (s : Fin 16 → ℝ) : Fin 16 → ℝ := fun i =>
  if 6 ≤ (i : ℕ) ∧ (i : ℕ) < 10 then s i / quatBlockNorm s else s i

/-- State index of position component `i` (block `state[0:3]`). -/
def posIdx (i : Fin 3) : Fin 16 := ⟨i.1, by have := i.2; omega⟩

/-- State index of velocity component `i` (block `state[3:6]`). -/
def velIdx (i : Fin 3) : Fin 16 := ⟨i.1 + 3, by have := i.2; omega⟩

/-- State index of gyro-bias component `i` (block `state[10:13]`). -/
def gbIdx (i : Fin 3) : Fin 16 := ⟨i.1 + 10, by have := i.2; omega⟩

/-- State index of accel-bias component `i` (block `state[13:16]`). -/
def abIdx (i : Fin 3) : Fin 16 := ⟨i.1 + 13, by have := i.2; omega⟩

/-- The state vector assembled by the block assignments of `predict`
before the final quaternion renormalization: position `p + v*dt + Δp`,
velocity `v + Δv`, the composed orientation
`from_quat(state quaternion) * Δrotation` (scipy's `from_quat`
normalizes its input), and unchanged biases. -/
def predictState1 (e : EKFFusionEngine) (delta_position delta_velocity : V3)
    (delta_rotation : Quat) (dt : ℝ) : Fin 16 → ℝ := fun i =>
  if h3 : (i : ℕ) < 3 then
    e.state i + e.state ⟨(i : ℕ) + 3, by omega⟩ * dt + delta_position ⟨(i : ℕ), h3⟩
  else if h6 : (i : ℕ) < 6 then
    e.state i + delta_velocity ⟨(i : ℕ) - 3, by omega⟩
  else if (i : ℕ) = 6 then ((Quat.normalize (stateQuat e.state)).mul delta_rotation).w
  else if (i : ℕ) = 7 then ((Quat.normalize (stateQuat e.state)).mul delta_rotation).x
  else if (i : ℕ) = 8 then ((Quat.normalize (stateQuat e.state)).mul delta_rotation).y
  else if (i : ℕ) = 9 then ((Quat.normalize (stateQuat e.state)).mul delta_rotation).z
  else e.state i

/-- `EKFFusionEngine.predict`.  `Rotation.from_quat` on the stored state
quaternion raises on a zero-norm quaternion (`none`); otherwise it
normalizes.  The new state takes `p + v*dt + Δp`, `v + Δv`, the composed
orientation, unchanged biases; the quaternion block is then renormalized.
The covariance becomes `F P Fᵀ + Q*dt`. -/
def EKFFusionEngine.predict (e : EKFFusionEngine) (delta_position delta_velocity : V3)
    (delta_rotation : Quat) (dt : ℝ) : Option EKFFusionEngine :=
  if Quat.normSq (stateQuat e.state) = 0 then none
  else
    some { e with
      state := renormQuatBlock (predictState1 e delta_position delta_velocity delta_rotation dt)
      covariance := Fmat dt * e.covariance * (Fmat dt)ᵀ + dt • e.Q }

/-- The local `z` of `update`: `np.concatenate([measured_position,
measured_quat])` with the measured quaternion in `[w,x,y,z]` order. -/
def zvec (measured_position : V3) (measured_rotation : Quat) : Fin 7 → ℝ :=
  ![measured_position 0, measured_position 1, measured_position 2,
    measured_rotation.w, measured_rotation.x, measured_rotation.y, measured_rotation.z]

/-- The local `h` of `update`: the predicted measurement, read directly
from the position and quaternion blocks of the state. -/
def hvec (e : EKFFusionEngine) : Fin 7 → ℝ :=
  ![e.state 0, e.state 1, e.state 2, e.state 6, e.state 7, e.state 8, e.state 9]

/-- `np.dot(measured_quat, predicted_quat)` of `update`. -/
def qdotZH (e : EKFFusionEngine) (mp : V3) (mr : Quat) : ℝ :=
  zvec mp mr 3 * hvec e 3 + zvec mp mr 4 * hvec e 4
    + zvec mp mr 5 * hvec e 5 + zvec mp mr 6 * hvec e 6

/-- The innovation `y = z - h` of `update`, with `y[3:7]` overwritten by
`z[3:7] + h[3:7]` when the quaternion dot product is negative. -/
def yvec (e : EKFFusionEngine) (mp : V3) (mr : Quat) : Fin 7 → ℝ := fun i =>
  if 3 ≤ (i : ℕ) ∧ qdotZH e mp mr < 0 then zvec mp mr i + hvec e i
  else zvec mp mr i - hvec e i

/-- The innovation covariance `S = H P Hᵀ + R` of `update`. -/
def Smat (e : EKFFusionEngine) : Matrix (Fin 7) (Fin 7) ℝ :=
  Hmat * e.covariance * Hmatᵀ + e.R

/-- The Kalman gain `K = P Hᵀ S⁻¹` of `update`. -/
def Kmat (e : EKFFusionEngine) : Matrix (Fin 16) (Fin 7) ℝ :=
  e.covariance * Hmatᵀ * (Smat e)⁻¹

open scoped Classical in
/-- `EKFFusionEngine.update`.  Builds the 7-D measurement `z`, predicted
measurement `h`, residual `y` (with the double-cover branch), then
`S = H P Hᵀ + R`.  `np.linalg.inv(S)` raises on a singular `S` (`none`);
this happens before any assignment to the filter's fields, so a failed
call leaves the engine unchanged.  Otherwise `K = P Hᵀ S⁻¹`,
`state += K y`, the quaternion block is renormalized, and
`P = (I - K H) P`. -/
def EKFFusionEngine.update (e : EKFFusionEngine) (measured_position : V3)
    (measured_rotation : Quat) : Option EKFFusionEngine :=
  if IsUnit (Smat e).det then
    some { e with
      state := renormQuatBlock (e.state + Kmat e *ᵥ yvec e measured_position measured_rotation)
      covariance := (1 - Kmat e * Hmat) * e.covariance }
  else none

/-- Python call semantics of `update` at the object level: on an
exception the engine keeps its pre-call state. -/
def EKFFusionEngine.runUpdate (e : EKFFusionEngine) (measured_position : V3)
    (measured_rotation : Quat) : EKFFusionEngine :=
  (e.update measured_position measured_rotation).getD e

/-- A call made to the filter: the two mutating operations. -/
inductive FilterCall where
  | predict (dp dv : V3) (dq : Quat) (dt : ℝ)
  | update (mp : V3) (mr : Quat)

/-- Execute one call with Python exception semantics (a raising call
leaves the engine unchanged). -/
def stepCall (e : EKFFusionEngine) : FilterCall → EKFFusionEngine
  | .predict dp dv dq dt => (e.predict dp dv dq dt).getD e
  | .update mp mr => (e.update mp mr).getD e

/-- The all-zero 3-vector. -/
def vzero : V3 := fun _ => 0

/-- An engine constructed with `initial_covariance = np.zeros((16,16))` and
`measurement_noise = np.zeros((7,7))` (both accepted by `__init__`):
its innovation covariance `S` is the zero matrix. -/
def zeroNoiseEngine : EKFFusionEngine := ⟨defaultState, 0, defaultQ, 0⟩

/-- An engine constructed with `initial_state = np.zeros(16)` (accepted by
`__init__`): its orientation quaternion block is `[0,0,0,0]`. -/
def zeroStateEngine : EKFFusionEngine := ⟨fun _ => 0, defaultCovariance, defaultQ, defaultR⟩

/-- A measured orientation with rational unit quaternion `[3/5, 0, 0, 4/5]`
(a rotation about the z-axis). -/
def qMeas : Quat := ⟨3 / 5, 0, 0, 4 / 5⟩

/-- The negated quaternion `-qMeas`, representing the same rotation. -/
def qMeasNeg : Quat := ⟨-(3 / 5), 0, 0, -(4 / 5)⟩

/-- Diagonal of the default innovation covariance
`S = H (0.1 I) Hᵀ + R_default`. -/
def sScale : Fin 7 → ℝ := fun m => if (m : ℕ) < 3 then 11 / 100 else 101 / 1000

/-- Diagonal of the inverse of the default innovation covariance. -/
def sScaleInv : Fin 7 → ℝ := fun m => if (m : ℕ) < 3 then 100 / 11 else 1000 / 101

/-- A symmetric positive-semidefinite initial covariance with unit
couplings among state components 0 (position x) and 6 (quaternion w):
the rank-one matrix `(e₀+e₆)(e₀+e₆)ᵀ`. -/
def couplingCov : Matrix (Fin 16) (Fin 16) ℝ :=
  Matrix.of fun i j =>
    if ((i : ℕ) = 0 ∨ (i : ℕ) = 6) ∧ ((j : ℕ) = 0 ∨ (j : ℕ) = 6) then 1 else 0

/-- An engine constructed with `initial_covariance = couplingCov` and
default state and noise matrices. -/
def couplingEngine : EKFFusionEngine := ⟨defaultState, couplingCov, defaultQ, defaultR⟩

/-- Explicit inverse of the innovation covariance of `couplingEngine`
(`S = H couplingCov Hᵀ + R_default`, which couples measurement rows 0
and 3). -/
def couplingSInv : Matrix (Fin 7) (Fin 7) ℝ :=
  Matrix.of fun l m =>
    if (l : ℕ) = 0 ∧ (m : ℕ) = 0 then 100100 / 1101
    else if (l : ℕ) = 0 ∧ (m : ℕ) = 3 then -(100000 / 1101)
    else if (l : ℕ) = 3 ∧ (m : ℕ) = 0 then -(100000 / 1101)
    else if (l : ℕ) = 3 ∧ (m : ℕ) = 3 then 101000 / 1101
    else if (l : ℕ) = 1 ∧ (m : ℕ) = 1 then 100
    else if (l : ℕ) = 2 ∧ (m : ℕ) = 2 then 100
    else if (l : ℕ) = (m : ℕ) ∧ 4 ≤ (l : ℕ) then 1000
    else 0

/-- The measured position that zeroes the posterior quaternion of
`couplingEngine` in a single `update` (with identity measured rotation). -/
def badPos : V3 := ![-(1101 / 100), 0, 0]

/-- The measured position `[1, 0, 0]` of the update scenario. -/
def exPos : V3 := ![1, 0, 0]

/-- The vector `e₀ + e₆` whose outer product with itself is
`couplingCov`. -/
def vCoupling : Fin 16 → ℝ := fun i => if (i : ℕ) = 0 ∨ (i : ℕ) = 6 then 1 else 0

/-- The innovation covariance of `couplingEngine` written out:
`H couplingCov Hᵀ + R_default`, coupling measurement rows 0 and 3. -/
def couplingS : Matrix (Fin 7) (Fin 7) ℝ :=
  Matrix.of fun l m =>
    if (l : ℕ) = 0 ∧ (m : ℕ) = 0 then 101 / 100
    else if (l : ℕ) = 0 ∧ (m : ℕ) = 3 then 1
    else if (l : ℕ) = 3 ∧ (m : ℕ) = 0 then 1
    else if (l : ℕ) = 3 ∧ (m : ℕ) = 3 then 1001 / 1000
    else if (l : ℕ) = (m : ℕ) ∧ (l : ℕ) < 3 then 1 / 100
    else if (l : ℕ) = (m : ℕ) then 1 / 1000
    else 0

/-- The 200 Hz gyroscope burst of the stationary scenario: timestamps
`i/200` for `i = 0..199` (`np.arange(0, 1, 1/200)`), readings exactly
zero. -/
def stationaryGyro : List Sample :=
  (List.range 200).map fun i : ℕ => ((i : ℝ) / 200, fun _ => 0)

/-- The 200 Hz accelerometer burst of the stationary scenario: readings
exactly `[0, 0, 9.81]`. -/
def stationaryAccel : List Sample :=
  (List.range 200).map fun i : ℕ => ((i : ℝ) / 200, ![0, 0, 981 / 100])

/-- The constant per-step world acceleration of the stationary scenario:
`rot.apply([0,0,9.81]) - [0,0,-9.81] = [0,0,19.62]` (the gravity vector is
subtracted with the wrong sign for a specific-force reading). -/
def awSt : V3 := ![0, 0, 981 / 50]

/-- The bias-freeze invariant: bias state components (10..15) are zero,
the covariance has no coupling between the observed/propagated block
(components 0..9) and the bias block (components 10..15), and the
process noise is the default diagonal `Q`. -/
def BiasInv (e : EKFFusionEngine) : Prop :=
  (∀ i : Fin 16, 10 ≤ (i : ℕ) → e.state i = 0) ∧
  (∀ i j : Fin 16, (10 ≤ (i : ℕ) ∧ (j : ℕ) < 10) ∨ ((i : ℕ) < 10 ∧ 10 ≤ (j : ℕ)) →
    e.covariance i j = 0) ∧
  e.Q = defaultQ

/-! ## Quaternion algebra -/

theorem Quat.mul_one (q : Quat) : q.mul Quat.one = q := by
  ext <;> simp [Quat.mul, Quat.one]

theorem Quat.one_mul (q : Quat) : Quat.one.mul q = q := by
  ext <;> simp [Quat.mul, Quat.one]

theorem Quat.mul_assoc (p q r : Quat) : (p.mul q).mul r = p.mul (q.mul r) := by
  ext <;> simp [Quat.mul] <;> ring

theorem Quat.inv_mul_self (q : Quat) : (Quat.inv q).mul q = ⟨q.normSq, 0, 0, 0⟩ := by
  ext <;> simp [Quat.mul, Quat.inv, Quat.normSq] <;> ring

theorem Quat.inv_one : Quat.inv Quat.one = Quat.one := by
  ext <;> simp [Quat.inv, Quat.one]

theorem Quat.normSq_mul (p q : Quat) : (p.mul q).normSq = p.normSq * q.normSq := by
  simp only [Quat.mul, Quat.normSq]
  ring

theorem Quat.normSq_nonneg (q : Quat) : 0 ≤ q.normSq := by
  unfold Quat.normSq
  positivity

theorem Quat.apply_one (v : V3) : Quat.one.apply v = v := by
  funext i
  fin_cases i <;> (norm_num [Quat.apply, Quat.one]; try rfl)

theorem Quat.fromRotvec_zero : Quat.fromRotvec 0 = Quat.one := by
  simp only [Quat.fromRotvec, Quat.one]
  norm_num

/-! ## Sorting -/

theorem length_insertByTime (x : Sample) (l : List Sample) :
    (insertByTime x l).length = l.length + 1 := by
  induction l with
  | nil => rfl
  | cons y ys ih =>
      simp only [insertByTime]
      split <;> simp [ih]

theorem length_sortByTime (l : List Sample) : (sortByTime l).length = l.length := by
  induction l with
  | nil => rfl
  | cons x xs ih =>
      simp only [sortByTime, List.foldr] at ih ⊢
      rw [length_insertByTime, ih]
      simp

theorem sortByTime_eq_self {l : List Sample} (h : l.Pairwise fun u w => u.1 ≤ w.1) :
    sortByTime l = l := by
  induction l with
  | nil => rfl
  | cons x xs ih =>
      have hx : ∀ w ∈ xs, x.1 ≤ w.1 := (List.pairwise_cons.mp h).1
      have htl : sortByTime xs = xs := ih (List.pairwise_cons.mp h).2
      show insertByTime x (sortByTime xs) = x :: xs
      rw [htl]
      cases xs with
      | nil => rfl
      | cons y ys =>
          simp only [insertByTime]
          rw [if_pos (hx y (by simp))]

/-! ## Loop basics -/

theorem integLoop_exit (p : IMUProcessor) (gl al : List Sample) (g a : ℕ) (st : IntegState)
    (h : ¬(g < gl.length - 1 ∧ a < al.length - 1)) :
    integLoop p gl al g a st = st := by
  rw [integLoop]
  exact dif_neg h

/-- C5 helper: the zero-delta result of `reset_integration`. -/
theorem preintegrate_short (p : IMUProcessor) (gl al : List Sample) (init : Option Quat)
    (hinit : ∀ q ∈ init, q.normSq = 1)
    (hlen : gl.length < 2 ∨ al.length < 2) :
    p.preintegrate gl al init = (fun _ => 0, fun _ => 0, Quat.one) := by
  have hguard : ¬(0 < (sortByTime gl).length - 1 ∧ 0 < (sortByTime al).length - 1) := by
    rw [length_sortByTime, length_sortByTime]
    omega
  unfold IMUProcessor.preintegrate
  dsimp only
  rw [integLoop_exit _ _ _ _ _ _ hguard]
  cases init with
  | none =>
      simp only [Option.getD]
      rw [Quat.inv_one, Quat.one_mul]
  | some q =>
      have hq : q.normSq = 1 := hinit q rfl
      simp only [Option.getD]
      rw [Quat.inv_mul_self, hq]
      rfl

/-- C5: for every pair of input sequences in which the gyro sequence or
the accel sequence has fewer than 2 samples (including exactly one sample
each), `preintegrate` returns the zero delta (`delta_position = 0`,
`delta_velocity = 0`, `delta_rotation = identity`) normally — the merge
loop's guard fails immediately and the `reset_integration` values are
returned; no operation on this path can raise. -/
theorem C5_single_sample_insufficiency (p : IMUProcessor) (gl al : List Sample)
    (init : Option Quat) (hinit : ∀ q ∈ init, q.normSq = 1)
    (hlen : gl.length < 2 ∨ al.length < 2) :
    p.preintegrate gl al init = (fun _ => 0, fun _ => 0, Quat.one) :=
  preintegrate_short p gl al init hinit hlen

/-- Witness for C5 at one gyro sample and one accel sample. -/
theorem C5_witness :
    ((∀ q ∈ (none : Option Quat), q.normSq = 1) ∧
      ([((0 : ℝ), vzero)].length < 2 ∨ [((0 : ℝ), vzero)].length < 2)) ∧
    defaultIMU.preintegrate [((0 : ℝ), vzero)] [((0 : ℝ), vzero)] none
      = (fun _ => 0, fun _ => 0, Quat.one) :=
  ⟨⟨by simp, Or.inl (by simp)⟩,
    C5_single_sample_insufficiency defaultIMU [((0 : ℝ), vzero)] [((0 : ℝ), vzero)] none
      (by simp) (Or.inl (by simp))⟩

/-- C9: whenever the innovation covariance `S = H P Hᵀ + R` is singular,
`update` raises (`np.linalg.inv` fails, embedded as `none`), and the
engine is left exactly as it was before the call — the inversion happens
before any assignment to `self.state` or `self.covariance`. -/
theorem C9_singular_update_atomic (e : EKFFusionEngine) (mp : V3) (mr : Quat)
    (hdet : (Smat e).det = 0) :
    e.update mp mr = none ∧ e.runUpdate mp mr = e := by
  have h1 : e.update mp mr = none := by
    unfold EKFFusionEngine.update
    rw [if_neg (show ¬IsUnit (Smat e).det from fun hu => hu.ne_zero hdet)]
  refine ⟨h1, ?_⟩
  unfold EKFFusionEngine.runUpdate
  rw [h1]
  rfl

/-- Witness for C9: with zero initial covariance and zero measurement
noise (both accepted by `__init__`), `S = 0` is singular. -/
theorem C9_witness :
    (Smat zeroNoiseEngine).det = 0 ∧
    (zeroNoiseEngine.update vzero Quat.one = none ∧
      zeroNoiseEngine.runUpdate vzero Quat.one = zeroNoiseEngine) := by
  have hzero : Smat zeroNoiseEngine = 0 := by
    unfold Smat
    have h2 : zeroNoiseEngine.covariance = 0 := rfl
    have h3 : zeroNoiseEngine.R = 0 := rfl
    rw [h2, h3, Matrix.mul_zero, Matrix.zero_mul, add_zero]
  have hdet : (Smat zeroNoiseEngine).det = 0 := by
    rw [hzero]
    simp
  exact ⟨hdet, C9_singular_update_atomic zeroNoiseEngine vzero Quat.one hdet⟩

/-- The rotation increments of the merge loop do not depend on the
accumulator state, so a left factor of the running orientation passes
through the whole loop. -/
theorem integLoop_rot_factor (p : IMUProcessor) (gl al : List Sample) :
    ∀ (n g a : ℕ) (q : Quat) (st1 st2 : IntegState),
      (gl.length - g) + (al.length - a) ≤ n →
      st2.rot = q.mul st1.rot →
      (integLoop p gl al g a st2).rot = q.mul (integLoop p gl al g a st1).rot := by
  intro n
  induction n with
  | zero =>
      intro g a q st1 st2 hn h
      have hg : ¬(g < gl.length - 1 ∧ a < al.length - 1) := by omega
      rw [integLoop_exit _ _ _ _ _ _ hg, integLoop_exit _ _ _ _ _ _ hg]
      exact h
  | succ n ih =>
      intro g a q st1 st2 hn h
      by_cases hga : g < gl.length - 1 ∧ a < al.length - 1
      · conv_lhs => rw [integLoop]
        conv_rhs => rw [integLoop]
        rw [dif_pos hga, dif_pos hga]
        dsimp only
        split_ifs with hdt hadv hadv
        · exact ih (g + 1) a q st1 st2 (by omega) h
        · exact ih g (a + 1) q st1 st2 (by omega) h
        · refine ih (g + 1) a q _ _ (by omega) ?_
          simp only [integStep]
          rw [h, Quat.mul_assoc]
        · refine ih g (a + 1) q _ _ (by omega) ?_
          simp only [integStep]
          rw [h, Quat.mul_assoc]
      · rw [integLoop_exit _ _ _ _ _ _ hga, integLoop_exit _ _ _ _ _ _ hga]
        exact h

/-- C8: (a) in each integration step the velocity accumulator is updated
with `accel_world * dt` first, and the position accumulator is then
incremented by the already-updated velocity times `dt` plus the half-step
term `0.5 * accel_world * dt^2` (here `accel_world` is the bias-corrected
specific force rotated by the updated running orientation minus gravity,
exactly as in the source); (b) the returned `delta_rotation` is
`initial_rotation.inv() * current_rotation` for the final running
rotation, and is therefore the relative rotation: it coincides with the
result of integrating from the identity initial rotation. -/
theorem C8_step_order_and_relative_rotation :
    (∀ (p : IMUProcessor) (gyro accel : V3) (dt : ℝ) (st : IntegState),
      (integStep p gyro accel dt st).dv
          = st.dv + dt • (Quat.apply (st.rot.mul (Quat.fromRotvec (dt • (gyro - p.gyro_bias))))
              (accel - p.accel_bias) - p.gravity) ∧
      (integStep p gyro accel dt st).dp
          = st.dp + dt • (integStep p gyro accel dt st).dv
              + ((1 / 2) * dt * dt) •
                (Quat.apply (st.rot.mul (Quat.fromRotvec (dt • (gyro - p.gyro_bias))))
                  (accel - p.accel_bias) - p.gravity)) ∧
    (∀ (p : IMUProcessor) (gl al : List Sample) (init : Quat), init.normSq = 1 →
      (p.preintegrate gl al (some init)).2.2
          = (Quat.inv init).mul
              (integLoop p (sortByTime gl) (sortByTime al) 0 0
                ⟨fun _ => 0, fun _ => 0, init, 0⟩).rot ∧
      (p.preintegrate gl al (some init)).2.2 = (p.preintegrate gl al (some Quat.one)).2.2) := by
  constructor
  · intro p gyro accel dt st
    constructor
    · simp only [integStep]
    · simp only [integStep]
  · intro p gl al init hinit
    have h1 : (p.preintegrate gl al (some init)).2.2
        = (Quat.inv init).mul
            (integLoop p (sortByTime gl) (sortByTime al) 0 0
              ⟨fun _ => 0, fun _ => 0, init, 0⟩).rot := rfl
    refine ⟨h1, ?_⟩
    have h2 : (p.preintegrate gl al (some Quat.one)).2.2
        = (Quat.inv Quat.one).mul
            (integLoop p (sortByTime gl) (sortByTime al) 0 0
              ⟨fun _ => 0, fun _ => 0, Quat.one, 0⟩).rot := rfl
    have h3 : (integLoop p (sortByTime gl) (sortByTime al) 0 0
          ⟨fun _ => 0, fun _ => 0, init, 0⟩).rot
        = init.mul (integLoop p (sortByTime gl) (sortByTime al) 0 0
            ⟨fun _ => 0, fun _ => 0, Quat.one, 0⟩).rot := by
      refine integLoop_rot_factor p (sortByTime gl) (sortByTime al)
        ((sortByTime gl).length + (sortByTime al).length) 0 0 init
        ⟨fun _ => 0, fun _ => 0, Quat.one, 0⟩ ⟨fun _ => 0, fun _ => 0, init, 0⟩
        (by omega) ?_
      show init = init.mul Quat.one
      rw [Quat.mul_one]
    rw [h1, h2, h3, ← Quat.mul_assoc, Quat.inv_mul_self, hinit, Quat.inv_one]
    show Quat.one.mul _ = Quat.one.mul _
    rw [Quat.one_mul]

/-- Witness for C8's unit-norm hypothesis at the identity rotation. -/
theorem C8_witness :
    Quat.one.normSq = 1 ∧
    ((defaultIMU.preintegrate [] [] (some Quat.one)).2.2
        = (Quat.inv Quat.one).mul
            (integLoop defaultIMU (sortByTime []) (sortByTime []) 0 0
              ⟨fun _ => 0, fun _ => 0, Quat.one, 0⟩).rot ∧
      (defaultIMU.preintegrate [] [] (some Quat.one)).2.2
        = (defaultIMU.preintegrate [] [] (some Quat.one)).2.2) :=
  ⟨by norm_num [Quat.normSq, Quat.one],
    C8_step_order_and_relative_rotation.2 defaultIMU [] [] Quat.one
      (by norm_num [Quat.normSq, Quat.one])⟩

/-! ## Normalization -/

theorem Quat.norm_pos {q : Quat} (h : q.normSq ≠ 0) : 0 < q.norm :=
  Real.sqrt_pos.mpr (lt_of_le_of_ne (Quat.normSq_nonneg q) (Ne.symm h))

theorem Quat.mul_normalize_left (q dq : Quat) :
    (Quat.normalize q).mul dq
      = ⟨(q.mul dq).w / q.norm, (q.mul dq).x / q.norm,
         (q.mul dq).y / q.norm, (q.mul dq).z / q.norm⟩ := by
  ext <;> simp [Quat.normalize, Quat.mul] <;> ring

theorem Quat.normSq_divQ (q : Quat) (c : ℝ) :
    Quat.normSq ⟨q.w / c, q.x / c, q.y / c, q.z / c⟩ = q.normSq / c ^ 2 := by
  simp only [Quat.normSq]
  ring

theorem Quat.norm_divQ (q : Quat) (c : ℝ) (hc : 0 ≤ c) :
    Quat.norm ⟨q.w / c, q.x / c, q.y / c, q.z / c⟩ = q.norm / c := by
  unfold Quat.norm
  rw [Quat.normSq_divQ, Real.sqrt_div (Quat.normSq_nonneg q), Real.sqrt_sq hc]

/-- Renormalizing `normalize q * dq` gives the same quaternion as
renormalizing `q * dq` directly (the claim's `q ⊗ Δq` form), as long as
both products are nonzero. -/
theorem Quat.normalize_mul_normalize_left (q dq : Quat) (hq : q.normSq ≠ 0)
    (hr : (q.mul dq).normSq ≠ 0) :
    Quat.normalize ((Quat.normalize q).mul dq) = Quat.normalize (q.mul dq) := by
  have hc : 0 < q.norm := Quat.norm_pos hq
  have hrn : 0 < (q.mul dq).norm := Quat.norm_pos hr
  rw [Quat.mul_normalize_left]
  unfold Quat.normalize
  rw [Quat.norm_divQ _ _ hc.le]
  have hkey : q.norm * ((q.mul dq).norm / q.norm) = (q.mul dq).norm := by
    rw [mul_comm]
    exact div_mul_cancel₀ _ hc.ne'
  ext <;> dsimp <;> rw [div_div, hkey]

theorem renormQuatBlock_low (s : Fin 16 → ℝ) (n : Fin 16)
    (h : ¬(6 ≤ (n : ℕ) ∧ (n : ℕ) < 10)) : renormQuatBlock s n = s n :=
  if_neg h

theorem stateQuat_renormQuatBlock (s : Fin 16 → ℝ) :
    stateQuat (renormQuatBlock s) = Quat.normalize (stateQuat s) := by
  ext <;>
    simp only [stateQuat, renormQuatBlock, Quat.normalize, Quat.norm, Quat.normSq, quatBlockNorm,
      show ((6 : Fin 16) : ℕ) = 6 from rfl, show ((7 : Fin 16) : ℕ) = 7 from rfl,
      show ((8 : Fin 16) : ℕ) = 8 from rfl, show ((9 : Fin 16) : ℕ) = 9 from rfl] <;>
    norm_num

theorem predictState1_pos (e : EKFFusionEngine) (dp dv : V3) (dq : Quat) (dt : ℝ)
    (n : Fin 16) (h3 : (n : ℕ) < 3) :
    predictState1 e dp dv dq dt n
      = e.state n + e.state ⟨(n : ℕ) + 3, by omega⟩ * dt + dp ⟨(n : ℕ), h3⟩ := by
  unfold predictState1
  rw [dif_pos h3]

theorem predictState1_vel (e : EKFFusionEngine) (dp dv : V3) (dq : Quat) (dt : ℝ)
    (n : Fin 16) (h3 : ¬(n : ℕ) < 3) (h6 : (n : ℕ) < 6) :
    predictState1 e dp dv dq dt n = e.state n + dv ⟨(n : ℕ) - 3, by omega⟩ := by
  unfold predictState1
  rw [dif_neg h3, dif_pos h6]

theorem predictState1_high (e : EKFFusionEngine) (dp dv : V3) (dq : Quat) (dt : ℝ)
    (n : Fin 16) (h : 10 ≤ (n : ℕ)) :
    predictState1 e dp dv dq dt n = e.state n := by
  unfold predictState1
  rw [dif_neg (by omega), dif_neg (by omega), if_neg (by omega), if_neg (by omega),
    if_neg (by omega), if_neg (by omega)]

theorem stateQuat_predictState1 (e : EKFFusionEngine) (dp dv : V3) (dq : Quat) (dt : ℝ) :
    stateQuat (predictState1 e dp dv dq dt)
      = (Quat.normalize (stateQuat e.state)).mul dq := by
  ext <;>
    simp only [stateQuat, predictState1,
      show ((6 : Fin 16) : ℕ) = 6 from rfl, show ((7 : Fin 16) : ℕ) = 7 from rfl,
      show ((8 : Fin 16) : ℕ) = 8 from rfl, show ((9 : Fin 16) : ℕ) = 9 from rfl] <;>
    norm_num

/-- Characterization of a successful `predict`: the returned engine,
component by component, from the source text of the method. -/
theorem predict_spec (e : EKFFusionEngine) (dp dv : V3) (dq : Quat) (dt : ℝ)
    (hq : (stateQuat e.state).normSq ≠ 0) :
    ∃ e2, e.predict dp dv dq dt = some e2 ∧
      (∀ i : Fin 3, e2.state (posIdx i)
          = e.state (posIdx i) + e.state (velIdx i) * dt + dp i) ∧
      (∀ i : Fin 3, e2.state (velIdx i) = e.state (velIdx i) + dv i) ∧
      stateQuat e2.state
        = Quat.normalize ((Quat.normalize (stateQuat e.state)).mul dq) ∧
      (∀ i : Fin 3, e2.state (gbIdx i) = e.state (gbIdx i) ∧
        e2.state (abIdx i) = e.state (abIdx i)) ∧
      e2.covariance = Fmat dt * e.covariance * (Fmat dt)ᵀ + dt • e.Q ∧
      e2.Q = e.Q ∧ e2.R = e.R := by
  unfold EKFFusionEngine.predict
  rw [if_neg hq]
  refine ⟨_, rfl, ?_, ?_, ?_, ?_, rfl, rfl, rfl⟩
  · intro i
    have hp : ((posIdx i : Fin 16) : ℕ) = (i : ℕ) := rfl
    have hi := i.2
    show renormQuatBlock _ (posIdx i) = _
    rw [renormQuatBlock_low _ _ (by omega),
      predictState1_pos e dp dv dq dt (posIdx i) i.2]
    rfl
  · intro i
    have hv : ((velIdx i : Fin 16) : ℕ) = (i : ℕ) + 3 := rfl
    have hi := i.2
    show renormQuatBlock _ (velIdx i) = _
    rw [renormQuatBlock_low _ _ (by omega),
      predictState1_vel e dp dv dq dt (velIdx i) (by omega) (by omega)]
    have hfin : (⟨((velIdx i : Fin 16) : ℕ) - 3, by omega⟩ : Fin 3) = i := by
      apply Fin.ext
      show ((velIdx i : Fin 16) : ℕ) - 3 = (i : ℕ)
      omega
    rw [hfin]
  · show stateQuat (renormQuatBlock _) = _
    rw [stateQuat_renormQuatBlock, stateQuat_predictState1]
  · intro i
    have hg : ((gbIdx i : Fin 16) : ℕ) = (i : ℕ) + 10 := rfl
    have ha : ((abIdx i : Fin 16) : ℕ) = (i : ℕ) + 13 := rfl
    constructor
    · show renormQuatBlock (predictState1 e dp dv dq dt) (gbIdx i) = e.state (gbIdx i)
      rw [renormQuatBlock_low (predictState1 e dp dv dq dt) (gbIdx i) (by omega),
        predictState1_high e dp dv dq dt (gbIdx i) (by omega)]
    · show renormQuatBlock (predictState1 e dp dv dq dt) (abIdx i) = e.state (abIdx i)
      rw [renormQuatBlock_low (predictState1 e dp dv dq dt) (abIdx i) (by omega),
        predictState1_high e dp dv dq dt (abIdx i) (by omega)]


theorem Quat.normSq_one : Quat.one.normSq = 1 := by
  norm_num [Quat.normSq, Quat.one]

theorem stateQuat_defaultEngine : stateQuat defaultEngine.state = Quat.one := by
  ext <;>
    simp [stateQuat, defaultEngine, defaultState, Quat.one,
      show ((6 : Fin 16) : ℕ) = 6 from rfl, show ((7 : Fin 16) : ℕ) = 7 from rfl,
      show ((8 : Fin 16) : ℕ) = 8 from rfl, show ((9 : Fin 16) : ℕ) = 9 from rfl]

theorem defaultEngine_quat_normSq_ne : (stateQuat defaultEngine.state).normSq ≠ 0 := by
  rw [stateQuat_defaultEngine, Quat.normSq_one]
  norm_num

/-- C6 (amended): for every state whose orientation quaternion block is
nonzero (`Rotation.from_quat` raises on a zero quaternion, see
`C6_counterexample`) and every input, `predict` sets position to
`p + v*dt + Δp`, velocity to `v + Δv`, orientation to the renormalized
quaternion product `q ⊗ Δq`, and leaves both bias blocks unchanged; in
particular, from the default zero state, `predict` with zero deltas,
identity rotation and `dt = 1` leaves position and velocity at zero. -/
theorem C6_predict_propagation :
    (∀ (e : EKFFusionEngine) (dp dv : V3) (dq : Quat) (dt : ℝ),
      (stateQuat e.state).normSq ≠ 0 → dq.normSq = 1 →
      ∃ e2, e.predict dp dv dq dt = some e2 ∧
        (∀ i : Fin 3, e2.state (posIdx i)
            = e.state (posIdx i) + e.state (velIdx i) * dt + dp i) ∧
        (∀ i : Fin 3, e2.state (velIdx i) = e.state (velIdx i) + dv i) ∧
        stateQuat e2.state = Quat.normalize ((stateQuat e.state).mul dq) ∧
        (∀ i : Fin 3, e2.state (gbIdx i) = e.state (gbIdx i) ∧
          e2.state (abIdx i) = e.state (abIdx i))) ∧
    (∃ e2, defaultEngine.predict vzero vzero Quat.one 1 = some e2 ∧
      ∀ i : Fin 3, e2.state (posIdx i) = 0 ∧ e2.state (velIdx i) = 0) := by
  have main : ∀ (e : EKFFusionEngine) (dp dv : V3) (dq : Quat) (dt : ℝ),
      (stateQuat e.state).normSq ≠ 0 → dq.normSq = 1 →
      ∃ e2, e.predict dp dv dq dt = some e2 ∧
        (∀ i : Fin 3, e2.state (posIdx i)
            = e.state (posIdx i) + e.state (velIdx i) * dt + dp i) ∧
        (∀ i : Fin 3, e2.state (velIdx i) = e.state (velIdx i) + dv i) ∧
        stateQuat e2.state = Quat.normalize ((stateQuat e.state).mul dq) ∧
        (∀ i : Fin 3, e2.state (gbIdx i) = e.state (gbIdx i) ∧
          e2.state (abIdx i) = e.state (abIdx i)) := by
    intro e dp dv dq dt hq hdq
    obtain ⟨e2, hsome, hpos, hvel, hquat, hbias, _, _, _⟩ := predict_spec e dp dv dq dt hq
    refine ⟨e2, hsome, hpos, hvel, ?_, hbias⟩
    rw [hquat]
    exact Quat.normalize_mul_normalize_left _ dq hq
      (by rw [Quat.normSq_mul, hdq, mul_one]; exact hq)
  refine ⟨main, ?_⟩
  obtain ⟨e2, hsome, hpos, hvel, _, _⟩ :=
    main defaultEngine vzero vzero Quat.one 1 defaultEngine_quat_normSq_ne Quat.normSq_one
  refine ⟨e2, hsome, ?_⟩
  intro i
  have hi := i.2
  have hdp : defaultEngine.state (posIdx i) = 0 := by
    show (if ((posIdx i : Fin 16) : ℕ) = 6 then (1 : ℝ) else 0) = 0
    rw [if_neg (show ¬((posIdx i : Fin 16) : ℕ) = 6 from by
      have : ((posIdx i : Fin 16) : ℕ) = (i : ℕ) := rfl
      omega)]
  have hdv : defaultEngine.state (velIdx i) = 0 := by
    show (if ((velIdx i : Fin 16) : ℕ) = 6 then (1 : ℝ) else 0) = 0
    rw [if_neg (show ¬((velIdx i : Fin 16) : ℕ) = 6 from by
      have : ((velIdx i : Fin 16) : ℕ) = (i : ℕ) + 3 := rfl
      omega)]
  constructor
  · rw [hpos i, hdp, hdv]
    show 0 + 0 * 1 + vzero i = 0
    norm_num [vzero]
  · rw [hvel i, hdv]
    show 0 + vzero i = 0
    norm_num [vzero]

/-- C6 counterexample to the unqualified claim: on a state whose
quaternion block is all zeros (an `initial_state` accepted by
`__init__`), `predict` raises in `Rotation.from_quat` instead of
propagating the state. -/
theorem C6_counterexample : zeroStateEngine.predict vzero vzero Quat.one 1 = none := by
  have h0 : (stateQuat zeroStateEngine.state).normSq = 0 := by
    norm_num [zeroStateEngine, stateQuat, Quat.normSq]
  unfold EKFFusionEngine.predict
  rw [if_pos h0]

/-- Witness for C6: the amended theorem applied to the default engine. -/
theorem C6_witness :
    ((stateQuat defaultEngine.state).normSq ≠ 0 ∧ Quat.one.normSq = 1) ∧
    (∃ e2, defaultEngine.predict vzero vzero Quat.one 1 = some e2 ∧
      (∀ i : Fin 3, e2.state (posIdx i)
          = defaultEngine.state (posIdx i) + defaultEngine.state (velIdx i) * 1 + vzero i) ∧
      (∀ i : Fin 3, e2.state (velIdx i) = defaultEngine.state (velIdx i) + vzero i) ∧
      stateQuat e2.state = Quat.normalize ((stateQuat defaultEngine.state).mul Quat.one) ∧
      (∀ i : Fin 3, e2.state (gbIdx i) = defaultEngine.state (gbIdx i) ∧
        e2.state (abIdx i) = defaultEngine.state (abIdx i))) :=
  ⟨⟨defaultEngine_quat_normSq_ne, Quat.normSq_one⟩,
    C6_predict_propagation.1 defaultEngine vzero vzero Quat.one 1
      defaultEngine_quat_normSq_ne Quat.normSq_one⟩


/-! ## The measurement matrix as a selector -/

set_option maxHeartbeats 1000000 in
theorem Hmat_apply_obs (l : Fin 7) (m : Fin 16) :
    Hmat l m = if m = obsFin l then 1 else 0 := by
  fin_cases l <;> fin_cases m <;>
    simp [Hmat, obsFin, obs, Fin.ext_iff, show ((0 : Fin 7) : ℕ) = 0 from rfl, show ((1 : Fin 7) : ℕ) = 1 from rfl, show ((2 : Fin 7) : ℕ) = 2 from rfl, show ((3 : Fin 7) : ℕ) = 3 from rfl, show ((4 : Fin 7) : ℕ) = 4 from rfl, show ((5 : Fin 7) : ℕ) = 5 from rfl, show ((6 : Fin 7) : ℕ) = 6 from rfl,
      show ((0 : Fin 16) : ℕ) = 0 from rfl, show ((1 : Fin 16) : ℕ) = 1 from rfl, show ((2 : Fin 16) : ℕ) = 2 from rfl, show ((3 : Fin 16) : ℕ) = 3 from rfl, show ((4 : Fin 16) : ℕ) = 4 from rfl, show ((5 : Fin 16) : ℕ) = 5 from rfl, show ((6 : Fin 16) : ℕ) = 6 from rfl, show ((7 : Fin 16) : ℕ) = 7 from rfl, show ((8 : Fin 16) : ℕ) = 8 from rfl, show ((9 : Fin 16) : ℕ) = 9 from rfl, show ((10 : Fin 16) : ℕ) = 10 from rfl, show ((11 : Fin 16) : ℕ) = 11 from rfl, show ((12 : Fin 16) : ℕ) = 12 from rfl, show ((13 : Fin 16) : ℕ) = 13 from rfl, show ((14 : Fin 16) : ℕ) = 14 from rfl, show ((15 : Fin 16) : ℕ) = 15 from rfl]

theorem obsFin_injective : Function.Injective obsFin := by
  intro a b h
  have hv : obs (a : ℕ) = obs (b : ℕ) := congrArg Fin.val h
  have ha := a.2
  have hb := b.2
  unfold obs at hv
  apply Fin.ext
  split at hv <;> split at hv <;> omega

theorem mul_HmatT_apply {n : Type} (P : Matrix n (Fin 16) ℝ) (i : n) (m : Fin 7) :
    (P * Hmatᵀ) i m = P i (obsFin m) := by
  rw [Matrix.mul_apply, Finset.sum_eq_single (obsFin m)]
  · rw [Matrix.transpose_apply, Hmat_apply_obs, if_pos rfl, mul_one]
  · intro k _ hk
    rw [Matrix.transpose_apply, Hmat_apply_obs, if_neg hk, mul_zero]
  · intro hmem
    exact absurd (Finset.mem_univ _) hmem

theorem Hmat_mul_apply {n : Type} (P : Matrix (Fin 16) n ℝ) (l : Fin 7) (j : n) :
    (Hmat * P) l j = P (obsFin l) j := by
  rw [Matrix.mul_apply, Finset.sum_eq_single (obsFin l)]
  · rw [Hmat_apply_obs, if_pos rfl, one_mul]
  · intro k _ hk
    rw [Hmat_apply_obs, if_neg hk, zero_mul]
  · intro hmem
    exact absurd (Finset.mem_univ _) hmem

theorem Smat_apply (e : EKFFusionEngine) (l m : Fin 7) :
    Smat e l m = e.covariance (obsFin l) (obsFin m) + e.R l m := by
  unfold Smat
  rw [Matrix.add_apply, mul_HmatT_apply, Hmat_mul_apply]

theorem Kmat_apply (e : EKFFusionEngine) (i : Fin 16) (m : Fin 7) :
    Kmat e i m = ∑ l : Fin 7, e.covariance i (obsFin l) * (Smat e)⁻¹ l m := by
  unfold Kmat
  rw [Matrix.mul_apply]
  refine Finset.sum_congr rfl fun l _ => ?_
  rw [mul_HmatT_apply]

/-! ## The default innovation covariance and gain -/

theorem sScale_mul_inv (m : Fin 7) : sScale m * sScaleInv m = 1 := by
  by_cases h : (m : ℕ) < 3 <;> simp [sScale, sScaleInv, h]

theorem Smat_default : Smat defaultEngine = Matrix.diagonal sScale := by
  ext l m
  rw [Smat_apply]
  show defaultCovariance (obsFin l) (obsFin m) + defaultR l m = _
  unfold defaultCovariance defaultR
  rw [Matrix.smul_apply, Matrix.one_apply]
  by_cases hlm : l = m
  · subst hlm
    rw [if_pos rfl, Matrix.diagonal_apply_eq, Matrix.diagonal_apply_eq]
    by_cases h : (l : ℕ) < 3 <;> simp [sScale, rScale, h] <;> norm_num
  · rw [if_neg (fun hc => hlm (obsFin_injective hc)), Matrix.diagonal_apply_ne _ hlm,
      Matrix.diagonal_apply_ne _ hlm]
    simp

theorem Smat_default_mul_inv :
    Smat defaultEngine * Matrix.diagonal sScaleInv = 1 := by
  rw [Smat_default, Matrix.diagonal_mul_diagonal,
    show (fun i => sScale i * sScaleInv i) = fun _ => (1 : ℝ) from funext fun m => sScale_mul_inv m,
    Matrix.diagonal_one]

theorem isUnit_Smat_default : IsUnit (Smat defaultEngine).det :=
  Matrix.isUnit_det_of_right_inverse Smat_default_mul_inv

theorem Smat_default_inv : (Smat defaultEngine)⁻¹ = Matrix.diagonal sScaleInv :=
  Matrix.inv_eq_right_inv Smat_default_mul_inv

theorem Kmat_default_apply (i : Fin 16) (m : Fin 7) :
    Kmat defaultEngine i m = if i = obsFin m then (1 / 10) * sScaleInv m else 0 := by
  rw [Kmat_apply, Smat_default_inv, Finset.sum_eq_single m]
  · rw [Matrix.diagonal_apply_eq]
    show ((1 / 10 : ℝ) • (1 : Matrix (Fin 16) (Fin 16) ℝ)) i (obsFin m) * sScaleInv m = _
    rw [Matrix.smul_apply, Matrix.one_apply]
    by_cases h : i = obsFin m
    · rw [if_pos h, if_pos h]
      simp
    · rw [if_neg h, if_neg h]
      simp
  · intro l _ hl
    rw [Matrix.diagonal_apply_ne _ hl, mul_zero]
  · intro hmem
    exact absurd (Finset.mem_univ _) hmem

theorem Kmat_default_mulVec_obs (y : Fin 7 → ℝ) (m : Fin 7) :
    (Kmat defaultEngine *ᵥ y) (obsFin m) = (1 / 10) * sScaleInv m * y m := by
  show (∑ j : Fin 7, Kmat defaultEngine (obsFin m) j * y j) = _
  rw [Finset.sum_eq_single m]
  · rw [Kmat_default_apply, if_pos rfl]
  · intro j _ hj
    rw [Kmat_default_apply, if_neg (fun hc => hj (obsFin_injective hc).symm), zero_mul]
  · intro hmem
    exact absurd (Finset.mem_univ _) hmem

theorem add_K_default_apply (y : Fin 7 → ℝ) (m : Fin 7) :
    (defaultEngine.state + Kmat defaultEngine *ᵥ y) (obsFin m)
      = defaultState (obsFin m) + (1 / 10) * sScaleInv m * y m := by
  rw [Pi.add_apply, Kmat_default_mulVec_obs]
  rfl

theorem defaultState_obsFin (m : Fin 7) :
    defaultState (obsFin m) = if (m : ℕ) = 3 then 1 else 0 := by
  fin_cases m <;>
    norm_num [defaultState, obsFin, obs, show ((0 : Fin 7) : ℕ) = 0 from rfl, show ((1 : Fin 7) : ℕ) = 1 from rfl, show ((2 : Fin 7) : ℕ) = 2 from rfl, show ((3 : Fin 7) : ℕ) = 3 from rfl, show ((4 : Fin 7) : ℕ) = 4 from rfl, show ((5 : Fin 7) : ℕ) = 5 from rfl, show ((6 : Fin 7) : ℕ) = 6 from rfl]


/-! ## C7: the update pulls toward the measurement without overshoot -/

/-- C7: on a default-constructed filter, a single
`update(measured_position=[1,0,0], measured_rotation=identity)` produces
a posterior position x-component strictly between 0 and 1 (it equals
`10/11`). -/
theorem C7_update_pull_without_overshoot :
    ∃ e2, defaultEngine.update exPos Quat.one = some e2 ∧
      0 < e2.state 0 ∧ e2.state 0 < 1 := by
  have hqdot : qdotZH defaultEngine exPos Quat.one = 1 := by
    show (1 : ℝ) * 1 + 0 * 0 + 0 * 0 + 0 * 0 = 1
    norm_num
  have hy0 : yvec defaultEngine exPos Quat.one 0 = 1 := by
    unfold yvec
    rw [if_neg (fun hc => absurd hc.2 (by rw [hqdot]; norm_num))]
    show (1 : ℝ) - 0 = 1
    norm_num
  have hval :
      renormQuatBlock
        (defaultEngine.state + Kmat defaultEngine *ᵥ yvec defaultEngine exPos Quat.one) 0
        = 10 / 11 := by
    rw [renormQuatBlock_low _ _ (by norm_num [show ((0 : Fin 16) : ℕ) = 0 from rfl]),
      show (0 : Fin 16) = obsFin 0 from rfl, add_K_default_apply, defaultState_obsFin, hy0]
    norm_num [sScaleInv, show ((0 : Fin 7) : ℕ) = 0 from rfl]
  unfold EKFFusionEngine.update
  rw [if_pos isUnit_Smat_default]
  refine ⟨_, rfl, ?_, ?_⟩
  · show (0 : ℝ) <
      renormQuatBlock
        (defaultEngine.state + Kmat defaultEngine *ᵥ yvec defaultEngine exPos Quat.one) 0
    rw [hval]
    norm_num
  · show renormQuatBlock
        (defaultEngine.state + Kmat defaultEngine *ᵥ yvec defaultEngine exPos Quat.one) 0
        < 1
    rw [hval]
    norm_num


/-! ## C1: the double-cover flip does not make update(q) and update(-q) agree -/

/-- C1 (refuting computation): on the default filter, updating with the
rotation `[3/5, 0, 0, 4/5]` versus its negation (the same physical
rotation) yields posterior quaternion z-components of opposite sign —
`(80/101)/n₁ > 0` versus `-(80/101)/n₂ < 0` — so the posterior states are
not numerically identical.  The flipped residual `z + h` used when the
quaternion dot product is negative is the negation of the
equivalence-restoring residual `-z - h`. -/
theorem C1_double_cover_not_equivalent :
    ∃ e1 e2, defaultEngine.update vzero qMeas = some e1 ∧
      defaultEngine.update vzero qMeasNeg = some e2 ∧
      0 < e1.state 9 ∧ e2.state 9 < 0 ∧ e1.state 9 ≠ e2.state 9 := by
  have hqdot1 : qdotZH defaultEngine vzero qMeas = 3 / 5 := by
    show (3 / 5 : ℝ) * 1 + 0 * 0 + 0 * 0 + 4 / 5 * 0 = 3 / 5
    norm_num
  have hqdot2 : qdotZH defaultEngine vzero qMeasNeg = -(3 / 5) := by
    show (-(3 / 5) : ℝ) * 1 + 0 * 0 + 0 * 0 + -(4 / 5) * 0 = -(3 / 5)
    norm_num
  -- components of y for the first measurement (no flip: dot = 3/5 >= 0)
  have hy1 : ∀ j : Fin 7, yvec defaultEngine vzero qMeas j
      = zvec vzero qMeas j - hvec defaultEngine j := by
    intro j
    unfold yvec
    rw [if_neg (fun hc => absurd hc.2 (by rw [hqdot1]; norm_num))]
  -- components of y for the second measurement (flip on rows 3..6)
  have hy2 : ∀ j : Fin 7, 3 ≤ (j : ℕ) → yvec defaultEngine vzero qMeasNeg j
      = zvec vzero qMeasNeg j + hvec defaultEngine j := by
    intro j hj
    unfold yvec
    rw [if_pos ⟨hj, by rw [hqdot2]; norm_num⟩]
  set s1 := defaultEngine.state + Kmat defaultEngine *ᵥ yvec defaultEngine vzero qMeas with hs1def
  set s2 := defaultEngine.state + Kmat defaultEngine *ᵥ yvec defaultEngine vzero qMeasNeg
    with hs2def
  have hs1_6 : s1 (obsFin 3) = 61 / 101 := by
    rw [hs1def, add_K_default_apply, defaultState_obsFin, hy1]
    show (if ((3 : Fin 7) : ℕ) = 3 then (1 : ℝ) else 0)
        + 1 / 10 * sScaleInv 3 * (3 / 5 - 1) = 61 / 101
    norm_num [sScaleInv, show ((3 : Fin 7) : ℕ) = 3 from rfl]
  have hs1_7 : s1 (obsFin 4) = 0 := by
    rw [hs1def, add_K_default_apply, defaultState_obsFin, hy1]
    show (if ((4 : Fin 7) : ℕ) = 3 then (1 : ℝ) else 0) + 1 / 10 * sScaleInv 4 * (0 - 0) = 0
    norm_num [show ((4 : Fin 7) : ℕ) = 4 from rfl]
  have hs1_8 : s1 (obsFin 5) = 0 := by
    rw [hs1def, add_K_default_apply, defaultState_obsFin, hy1]
    show (if ((5 : Fin 7) : ℕ) = 3 then (1 : ℝ) else 0) + 1 / 10 * sScaleInv 5 * (0 - 0) = 0
    norm_num [show ((5 : Fin 7) : ℕ) = 5 from rfl]
  have hs1_9 : s1 (obsFin 6) = 80 / 101 := by
    rw [hs1def, add_K_default_apply, defaultState_obsFin, hy1]
    show (if ((6 : Fin 7) : ℕ) = 3 then (1 : ℝ) else 0)
        + 1 / 10 * sScaleInv 6 * (4 / 5 - 0) = 80 / 101
    norm_num [sScaleInv, show ((6 : Fin 7) : ℕ) = 6 from rfl]
  have hs2_6 : s2 (obsFin 3) = 141 / 101 := by
    rw [hs2def, add_K_default_apply, defaultState_obsFin,
      hy2 3 (by norm_num [show ((3 : Fin 7) : ℕ) = 3 from rfl])]
    show (if ((3 : Fin 7) : ℕ) = 3 then (1 : ℝ) else 0)
        + 1 / 10 * sScaleInv 3 * (-(3 / 5) + 1) = 141 / 101
    norm_num [sScaleInv, show ((3 : Fin 7) : ℕ) = 3 from rfl]
  have hs2_7 : s2 (obsFin 4) = 0 := by
    rw [hs2def, add_K_default_apply, defaultState_obsFin,
      hy2 4 (by norm_num [show ((4 : Fin 7) : ℕ) = 4 from rfl])]
    show (if ((4 : Fin 7) : ℕ) = 3 then (1 : ℝ) else 0) + 1 / 10 * sScaleInv 4 * (0 + 0) = 0
    norm_num [show ((4 : Fin 7) : ℕ) = 4 from rfl]
  have hs2_8 : s2 (obsFin 5) = 0 := by
    rw [hs2def, add_K_default_apply, defaultState_obsFin,
      hy2 5 (by norm_num [show ((5 : Fin 7) : ℕ) = 5 from rfl])]
    show (if ((5 : Fin 7) : ℕ) = 3 then (1 : ℝ) else 0) + 1 / 10 * sScaleInv 5 * (0 + 0) = 0
    norm_num [show ((5 : Fin 7) : ℕ) = 5 from rfl]
  have hs2_9 : s2 (obsFin 6) = -(80 / 101) := by
    rw [hs2def, add_K_default_apply, defaultState_obsFin,
      hy2 6 (by norm_num [show ((6 : Fin 7) : ℕ) = 6 from rfl])]
    show (if ((6 : Fin 7) : ℕ) = 3 then (1 : ℝ) else 0)
        + 1 / 10 * sScaleInv 6 * (-(4 / 5) + 0) = -(80 / 101)
    norm_num [sScaleInv, show ((6 : Fin 7) : ℕ) = 6 from rfl]
  have hqn1 : quatBlockNorm s1
      = Real.sqrt ((61 / 101) ^ 2 + 0 ^ 2 + 0 ^ 2 + (80 / 101) ^ 2) := by
    unfold quatBlockNorm
    rw [show (6 : Fin 16) = obsFin 3 from rfl, show (7 : Fin 16) = obsFin 4 from rfl,
      show (8 : Fin 16) = obsFin 5 from rfl, show (9 : Fin 16) = obsFin 6 from rfl,
      hs1_6, hs1_7, hs1_8, hs1_9]
  have hqn2 : quatBlockNorm s2
      = Real.sqrt ((141 / 101) ^ 2 + 0 ^ 2 + 0 ^ 2 + (-(80 / 101)) ^ 2) := by
    unfold quatBlockNorm
    rw [show (6 : Fin 16) = obsFin 3 from rfl, show (7 : Fin 16) = obsFin 4 from rfl,
      show (8 : Fin 16) = obsFin 5 from rfl, show (9 : Fin 16) = obsFin 6 from rfl,
      hs2_6, hs2_7, hs2_8, hs2_9]
  have hqn1_pos : 0 < quatBlockNorm s1 := by
    rw [hqn1]
    apply Real.sqrt_pos.mpr
    norm_num
  have hqn2_pos : 0 < quatBlockNorm s2 := by
    rw [hqn2]
    apply Real.sqrt_pos.mpr
    norm_num
  have hc1 : renormQuatBlock s1 9 = (80 / 101) / quatBlockNorm s1 := by
    unfold renormQuatBlock
    rw [if_pos (by norm_num [show ((9 : Fin 16) : ℕ) = 9 from rfl]),
      show (9 : Fin 16) = obsFin 6 from rfl, hs1_9]
  have hc2 : renormQuatBlock s2 9 = (-(80 / 101)) / quatBlockNorm s2 := by
    unfold renormQuatBlock
    rw [if_pos (by norm_num [show ((9 : Fin 16) : ℕ) = 9 from rfl]),
      show (9 : Fin 16) = obsFin 6 from rfl, hs2_9]
  have hpos : (0 : ℝ) < renormQuatBlock s1 9 := by
    rw [hc1]
    exact div_pos (by norm_num) hqn1_pos
  have hneg : renormQuatBlock s2 9 < 0 := by
    rw [hc2]
    exact div_neg_of_neg_of_pos (by norm_num) hqn2_pos
  unfold EKFFusionEngine.update
  rw [if_pos isUnit_Smat_default, if_pos isUnit_Smat_default]
  refine ⟨_, _, rfl, rfl, ?_, ?_, ?_⟩
  · exact hpos
  · exact hneg
  · intro hc
    have hceq : renormQuatBlock s1 9 = renormQuatBlock s2 9 := hc
    exact absurd hceq (lt_trans hneg hpos).ne'

/-! ## C3: the coupling covariance and its innovation matrix -/

theorem couplingCov_outer :
    couplingCov
      = (Matrix.of fun (_ : Fin 1) (i : Fin 16) => vCoupling i)ᴴ
        * Matrix.of fun (_ : Fin 1) (i : Fin 16) => vCoupling i := by
  ext i j
  rw [Matrix.mul_apply, Fin.sum_univ_one, Matrix.conjTranspose_apply]
  show couplingCov i j = star (vCoupling i) * vCoupling j
  rw [star_trivial]
  unfold couplingCov vCoupling
  by_cases hi : (i : ℕ) = 0 ∨ (i : ℕ) = 6 <;>
    by_cases hj : (j : ℕ) = 0 ∨ (j : ℕ) = 6 <;>
    simp [hi, hj]

theorem couplingCov_posSemidef : couplingCov.PosSemidef := by
  rw [couplingCov_outer]
  exact Matrix.posSemidef_conjTranspose_mul_self _

set_option maxHeartbeats 2000000 in
theorem Smat_coupling : Smat couplingEngine = couplingS := by
  ext l m
  rw [Smat_apply]
  show couplingCov (obsFin l) (obsFin m) + defaultR l m = couplingS l m
  unfold defaultR
  fin_cases l <;> fin_cases m <;>
    norm_num [couplingCov, couplingS, rScale, Matrix.diagonal, Matrix.of_apply, Fin.ext_iff,
      show ((0 : Fin 7) : ℕ) = 0 from rfl, show ((1 : Fin 7) : ℕ) = 1 from rfl, show ((2 : Fin 7) : ℕ) = 2 from rfl, show ((3 : Fin 7) : ℕ) = 3 from rfl, show ((4 : Fin 7) : ℕ) = 4 from rfl, show ((5 : Fin 7) : ℕ) = 5 from rfl, show ((6 : Fin 7) : ℕ) = 6 from rfl,
      show ((obsFin 0 : Fin 16) : ℕ) = 0 from rfl, show ((obsFin 1 : Fin 16) : ℕ) = 1 from rfl, show ((obsFin 2 : Fin 16) : ℕ) = 2 from rfl, show ((obsFin 3 : Fin 16) : ℕ) = 6 from rfl, show ((obsFin 4 : Fin 16) : ℕ) = 7 from rfl, show ((obsFin 5 : Fin 16) : ℕ) = 8 from rfl, show ((obsFin 6 : Fin 16) : ℕ) = 9 from rfl,
      show ((obsFin (⟨0, by omega⟩ : Fin 7) : Fin 16) : ℕ) = 0 from rfl, show ((obsFin (⟨1, by omega⟩ : Fin 7) : Fin 16) : ℕ) = 1 from rfl, show ((obsFin (⟨2, by omega⟩ : Fin 7) : Fin 16) : ℕ) = 2 from rfl, show ((obsFin (⟨3, by omega⟩ : Fin 7) : Fin 16) : ℕ) = 6 from rfl, show ((obsFin (⟨4, by omega⟩ : Fin 7) : Fin 16) : ℕ) = 7 from rfl, show ((obsFin (⟨5, by omega⟩ : Fin 7) : Fin 16) : ℕ) = 8 from rfl, show ((obsFin (⟨6, by omega⟩ : Fin 7) : Fin 16) : ℕ) = 9 from rfl]

set_option maxHeartbeats 2000000 in
theorem couplingS_mul_inv : couplingS * couplingSInv = 1 := by
  ext l m
  rw [Matrix.mul_apply, Fin.sum_univ_seven]
  fin_cases l <;> fin_cases m <;>
    norm_num [couplingS, couplingSInv, Matrix.one_apply, Fin.ext_iff,
      show ((0 : Fin 7) : ℕ) = 0 from rfl, show ((1 : Fin 7) : ℕ) = 1 from rfl, show ((2 : Fin 7) : ℕ) = 2 from rfl, show ((3 : Fin 7) : ℕ) = 3 from rfl, show ((4 : Fin 7) : ℕ) = 4 from rfl, show ((5 : Fin 7) : ℕ) = 5 from rfl, show ((6 : Fin 7) : ℕ) = 6 from rfl]

theorem isUnit_Smat_coupling : IsUnit (Smat couplingEngine).det := by
  rw [Smat_coupling]
  exact Matrix.isUnit_det_of_right_inverse couplingS_mul_inv

theorem Smat_coupling_inv : (Smat couplingEngine)⁻¹ = couplingSInv := by
  rw [Smat_coupling]
  exact Matrix.inv_eq_right_inv couplingS_mul_inv


/-! ## C3: counterexample and amended unit-norm invariant -/

/-- C3 counterexample: with the symmetric positive-semidefinite initial
covariance `couplingCov` (accepted by `__init__`), the default state, and
the single measurement `(badPos, identity)`, `update` returns normally
but the Kalman correction cancels the whole quaternion block: the
posterior orientation has Euclidean norm `0`, not `1` (numpy divides
`0/0` and stores `nan`; the real-number embedding stores `0` — either
way the posterior norm is not 1). -/
theorem C3_counterexample :
    couplingCov.PosSemidef ∧
    ∃ e2, couplingEngine.update badPos Quat.one = some e2 ∧
      (stateQuat e2.state).norm = 0 ∧ (stateQuat e2.state).norm ≠ 1 := by
  have hqdotc : qdotZH couplingEngine badPos Quat.one = 1 := by
    show (1 : ℝ) * 1 + 0 * 0 + 0 * 0 + 0 * 0 = 1
    norm_num
  have hyc : ∀ j : Fin 7, yvec couplingEngine badPos Quat.one j
      = zvec badPos Quat.one j - hvec couplingEngine j := by
    intro j
    unfold yvec
    rw [if_neg (fun hc => absurd hc.2 (by rw [hqdotc]; norm_num))]
  have hy0c : yvec couplingEngine badPos Quat.one 0 = -(1101 / 100) := by
    rw [hyc]
    show (-(1101 / 100) : ℝ) - 0 = -(1101 / 100)
    norm_num
  have hyjc : ∀ j : Fin 7, j ≠ 0 → yvec couplingEngine badPos Quat.one j = 0 := by
    intro j hj
    rw [hyc]
    fin_cases j
    · exact absurd rfl hj
    · show (0 : ℝ) - 0 = 0
      norm_num
    · show (0 : ℝ) - 0 = 0
      norm_num
    · show (1 : ℝ) - 1 = 0
      norm_num
    · show (0 : ℝ) - 0 = 0
      norm_num
    · show (0 : ℝ) - 0 = 0
      norm_num
    · show (0 : ℝ) - 0 = 0
      norm_num
  have hK3 : Kmat couplingEngine (obsFin 3) 0 = 100 / 1101 := by
    rw [Kmat_apply, Smat_coupling_inv, Fin.sum_univ_seven]
    show (1 : ℝ) * (100100 / 1101) + 0 * 0 + 0 * 0 + 1 * -(100000 / 1101)
        + 0 * 0 + 0 * 0 + 0 * 0 = 100 / 1101
    norm_num
  have hK4 : Kmat couplingEngine (obsFin 4) 0 = 0 := by
    rw [Kmat_apply, Smat_coupling_inv, Fin.sum_univ_seven]
    show (0 : ℝ) * (100100 / 1101) + 0 * 0 + 0 * 0 + 0 * -(100000 / 1101)
        + 0 * 0 + 0 * 0 + 0 * 0 = 0
    norm_num
  have hK5 : Kmat couplingEngine (obsFin 5) 0 = 0 := by
    rw [Kmat_apply, Smat_coupling_inv, Fin.sum_univ_seven]
    show (0 : ℝ) * (100100 / 1101) + 0 * 0 + 0 * 0 + 0 * -(100000 / 1101)
        + 0 * 0 + 0 * 0 + 0 * 0 = 0
    norm_num
  have hK6 : Kmat couplingEngine (obsFin 6) 0 = 0 := by
    rw [Kmat_apply, Smat_coupling_inv, Fin.sum_univ_seven]
    show (0 : ℝ) * (100100 / 1101) + 0 * 0 + 0 * 0 + 0 * -(100000 / 1101)
        + 0 * 0 + 0 * 0 + 0 * 0 = 0
    norm_num
  have hmv : ∀ m : Fin 7,
      (Kmat couplingEngine *ᵥ yvec couplingEngine badPos Quat.one) (obsFin m)
        = Kmat couplingEngine (obsFin m) 0 * yvec couplingEngine badPos Quat.one 0 := by
    intro m
    show (∑ j : Fin 7, Kmat couplingEngine (obsFin m) j
        * yvec couplingEngine badPos Quat.one j) = _
    rw [Finset.sum_eq_single 0]
    · intro j _ hj
      rw [hyjc j hj, mul_zero]
    · intro hmem
      exact absurd (Finset.mem_univ _) hmem
  set sc := couplingEngine.state
    + Kmat couplingEngine *ᵥ yvec couplingEngine badPos Quat.one with hscdef
  have hs6c : sc (obsFin 3) = 0 := by
    rw [hscdef, Pi.add_apply, hmv, hK3, hy0c]
    show (1 : ℝ) + 100 / 1101 * -(1101 / 100) = 0
    norm_num
  have hs7c : sc (obsFin 4) = 0 := by
    rw [hscdef, Pi.add_apply, hmv, hK4, hy0c]
    show (0 : ℝ) + 0 * -(1101 / 100) = 0
    norm_num
  have hs8c : sc (obsFin 5) = 0 := by
    rw [hscdef, Pi.add_apply, hmv, hK5, hy0c]
    show (0 : ℝ) + 0 * -(1101 / 100) = 0
    norm_num
  have hs9c : sc (obsFin 6) = 0 := by
    rw [hscdef, Pi.add_apply, hmv, hK6, hy0c]
    show (0 : ℝ) + 0 * -(1101 / 100) = 0
    norm_num
  have hq6 : renormQuatBlock sc 6 = 0 := by
    unfold renormQuatBlock
    rw [if_pos (by norm_num [show ((6 : Fin 16) : ℕ) = 6 from rfl]),
      show (6 : Fin 16) = obsFin 3 from rfl, hs6c, zero_div]
  have hq7 : renormQuatBlock sc 7 = 0 := by
    unfold renormQuatBlock
    rw [if_pos (by norm_num [show ((7 : Fin 16) : ℕ) = 7 from rfl]),
      show (7 : Fin 16) = obsFin 4 from rfl, hs7c, zero_div]
  have hq8 : renormQuatBlock sc 8 = 0 := by
    unfold renormQuatBlock
    rw [if_pos (by norm_num [show ((8 : Fin 16) : ℕ) = 8 from rfl]),
      show (8 : Fin 16) = obsFin 5 from rfl, hs8c, zero_div]
  have hq9 : renormQuatBlock sc 9 = 0 := by
    unfold renormQuatBlock
    rw [if_pos (by norm_num [show ((9 : Fin 16) : ℕ) = 9 from rfl]),
      show (9 : Fin 16) = obsFin 6 from rfl, hs9c, zero_div]
  have hsq : stateQuat (renormQuatBlock sc) = ⟨0, 0, 0, 0⟩ := by
    ext
    · exact hq6
    · exact hq7
    · exact hq8
    · exact hq9
  have hnorm : (stateQuat (renormQuatBlock sc)).norm = 0 := by
    rw [hsq]
    show Real.sqrt (0 ^ 2 + 0 ^ 2 + 0 ^ 2 + 0 ^ 2) = 0
    norm_num
  unfold EKFFusionEngine.update
  rw [if_pos isUnit_Smat_coupling]
  refine ⟨couplingCov_posSemidef, _, rfl, ?_, ?_⟩
  · exact hnorm
  · exact fun hc => absurd (hnorm.symm.trans hc) (by norm_num)


theorem Quat.norm_normalize {q : Quat} (h : q.normSq ≠ 0) :
    (Quat.normalize q).norm = 1 := by
  have hc : 0 < q.norm := Quat.norm_pos h
  show Quat.norm ⟨q.w / q.norm, q.x / q.norm, q.y / q.norm, q.z / q.norm⟩ = 1
  rw [Quat.norm_divQ q q.norm hc.le, div_self hc.ne']

theorem Quat.normSq_normalize {q : Quat} (h : q.normSq ≠ 0) :
    (Quat.normalize q).normSq = 1 := by
  have h1 : Real.sqrt (Quat.normalize q).normSq = 1 := Quat.norm_normalize h
  exact Real.sqrt_eq_one.mp h1

/-- C3 (amended): the quaternion norm is exactly 1 after every
successful `predict` from a nonzero stored quaternion, and after every
successful `update` whose state after adding the Kalman correction
`K y` still has a nonzero quaternion block (the condition the
counterexample `C3_counterexample` shows is necessary). -/
theorem C3_unit_norm_amended :
    (∀ (e : EKFFusionEngine) (dp dv : V3) (dq : Quat) (dt : ℝ),
      (stateQuat e.state).normSq ≠ 0 → dq.normSq = 1 →
      ∃ e2, e.predict dp dv dq dt = some e2 ∧ (stateQuat e2.state).norm = 1) ∧
    (∀ (e : EKFFusionEngine) (mp : V3) (mr : Quat),
      IsUnit (Smat e).det →
      (stateQuat (e.state + Kmat e *ᵥ yvec e mp mr)).normSq ≠ 0 →
      ∃ e2, e.update mp mr = some e2 ∧ (stateQuat e2.state).norm = 1) := by
  constructor
  · intro e dp dv dq dt hq hdq
    refine ⟨_, by unfold EKFFusionEngine.predict; rw [if_neg hq], ?_⟩
    show (stateQuat (renormQuatBlock (predictState1 e dp dv dq dt))).norm = 1
    rw [stateQuat_renormQuatBlock, stateQuat_predictState1]
    refine Quat.norm_normalize ?_
    rw [Quat.normSq_mul, Quat.normSq_normalize hq, hdq]
    norm_num
  · intro e mp mr hU hs
    refine ⟨_, by unfold EKFFusionEngine.update; rw [if_pos hU], ?_⟩
    show (stateQuat (renormQuatBlock (e.state + Kmat e *ᵥ yvec e mp mr))).norm = 1
    rw [stateQuat_renormQuatBlock]
    exact Quat.norm_normalize hs

/-- Witness for the amended C3 at the default engine (for `update`, the
measurement `([0,0,0], identity)` gives a zero innovation, so the
pre-normalization quaternion block is the unit quaternion). -/
theorem C3_witness :
    ((stateQuat defaultEngine.state).normSq ≠ 0 ∧ Quat.one.normSq = 1 ∧
      IsUnit (Smat defaultEngine).det ∧
      (stateQuat (defaultEngine.state
        + Kmat defaultEngine *ᵥ yvec defaultEngine vzero Quat.one)).normSq ≠ 0) ∧
    (∃ e2, defaultEngine.predict vzero vzero Quat.one 1 = some e2 ∧
      (stateQuat e2.state).norm = 1) ∧
    (∃ e2, defaultEngine.update vzero Quat.one = some e2 ∧
      (stateQuat e2.state).norm = 1) := by
  have hqdot : qdotZH defaultEngine vzero Quat.one = 1 := by
    show (1 : ℝ) * 1 + 0 * 0 + 0 * 0 + 0 * 0 = 1
    norm_num
  have hy : ∀ j : Fin 7, yvec defaultEngine vzero Quat.one j
      = zvec vzero Quat.one j - hvec defaultEngine j := by
    intro j
    unfold yvec
    rw [if_neg (fun hc => absurd hc.2 (by rw [hqdot]; norm_num))]
  have hs6 : (defaultEngine.state + Kmat defaultEngine *ᵥ yvec defaultEngine vzero Quat.one)
      (obsFin 3) = 1 := by
    rw [add_K_default_apply, defaultState_obsFin, hy]
    show (if ((3 : Fin 7) : ℕ) = 3 then (1 : ℝ) else 0) + 1 / 10 * sScaleInv 3 * (1 - 1) = 1
    norm_num [show ((3 : Fin 7) : ℕ) = 3 from rfl]
  have hs7 : (defaultEngine.state + Kmat defaultEngine *ᵥ yvec defaultEngine vzero Quat.one)
      (obsFin 4) = 0 := by
    rw [add_K_default_apply, defaultState_obsFin, hy]
    show (if ((4 : Fin 7) : ℕ) = 3 then (1 : ℝ) else 0) + 1 / 10 * sScaleInv 4 * (0 - 0) = 0
    norm_num [show ((4 : Fin 7) : ℕ) = 4 from rfl]
  have hs8 : (defaultEngine.state + Kmat defaultEngine *ᵥ yvec defaultEngine vzero Quat.one)
      (obsFin 5) = 0 := by
    rw [add_K_default_apply, defaultState_obsFin, hy]
    show (if ((5 : Fin 7) : ℕ) = 3 then (1 : ℝ) else 0) + 1 / 10 * sScaleInv 5 * (0 - 0) = 0
    norm_num [show ((5 : Fin 7) : ℕ) = 5 from rfl]
  have hs9 : (defaultEngine.state + Kmat defaultEngine *ᵥ yvec defaultEngine vzero Quat.one)
      (obsFin 6) = 0 := by
    rw [add_K_default_apply, defaultState_obsFin, hy]
    show (if ((6 : Fin 7) : ℕ) = 3 then (1 : ℝ) else 0) + 1 / 10 * sScaleInv 6 * (0 - 0) = 0
    norm_num [show ((6 : Fin 7) : ℕ) = 6 from rfl]
  have hsq : stateQuat (defaultEngine.state
      + Kmat defaultEngine *ᵥ yvec defaultEngine vzero Quat.one) = ⟨1, 0, 0, 0⟩ := by
    ext
    · exact hs6
    · exact hs7
    · exact hs8
    · exact hs9
  have hsq_ne : (stateQuat (defaultEngine.state
      + Kmat defaultEngine *ᵥ yvec defaultEngine vzero Quat.one)).normSq ≠ 0 := by
    rw [hsq]
    show (1 : ℝ) ^ 2 + 0 ^ 2 + 0 ^ 2 + 0 ^ 2 ≠ 0
    norm_num
  exact ⟨⟨defaultEngine_quat_normSq_ne, Quat.normSq_one, isUnit_Smat_default, hsq_ne⟩,
    C3_unit_norm_amended.1 defaultEngine vzero vzero Quat.one 1
      defaultEngine_quat_normSq_ne Quat.normSq_one,
    C3_unit_norm_amended.2 defaultEngine vzero Quat.one isUnit_Smat_default hsq_ne⟩


theorem posDef_inv_real {n : Type} [Fintype n] [DecidableEq n] {M : Matrix n n ℝ}
    (hM : M.PosDef) : M⁻¹.PosDef := by
  refine ⟨hM.isHermitian.inv, fun x hx => ?_⟩
  have := hM.2 (M⁻¹ *ᵥ x) ((Matrix.mulVec_injective_iff_isUnit.mpr ?_ |>.ne_iff' ?_).2 hx)
  · let _inst := hM.isUnit.invertible
    rwa [Matrix.star_mulVec, Matrix.mulVec_mulVec, Matrix.mul_inv_of_invertible,
      Matrix.one_mulVec, ← star_pos_iff, ← Matrix.star_mulVec, ← Matrix.star_dotProduct] at this
  · simpa using hM.isUnit
  · simp

theorem posSemidef_diag_entry_nonneg {n : Type} [Fintype n] [DecidableEq n]
    {C : Matrix n n ℝ} (hC : C.PosSemidef) (i : n) : 0 ≤ C i i := by
  have h := hC.2 (Pi.single i 1)
  simpa [Matrix.mulVec_single, Matrix.single_dotProduct] using h

/-- C4: for every engine whose covariance is symmetric positive
semidefinite and whose measurement noise is a diagonal matrix with
positive entries, an update call succeeds and the trace of the 3x3
position block of the posterior covariance (I - K H) P does not exceed
that of the prior. -/
theorem C4_covariance_shrinkage (e : EKFFusionEngine) (r : Fin 7 → ℝ)
    (hP : e.covariance.PosSemidef) (hR : e.R = Matrix.diagonal r)
    (hr : ∀ j, 0 < r j) (mp : V3) (mr : Quat) :
    ∃ e2, e.update mp mr = some e2 ∧
      e2.covariance 0 0 + e2.covariance 1 1 + e2.covariance 2 2
        ≤ e.covariance 0 0 + e.covariance 1 1 + e.covariance 2 2 := by
  have hH : (Hmat * e.covariance * Hmatᵀ).PosSemidef := by
    have h1 := hP.mul_mul_conjTranspose_same Hmat
    have hconj : Hmatᴴ = Hmatᵀ := by
      ext i j
      simp [Matrix.conjTranspose_apply, Matrix.transpose_apply]
    rwa [hconj] at h1
  have hRpd : e.R.PosDef := by
    rw [hR]
    exact Matrix.posDef_diagonal_iff.mpr hr
  have hS : (Smat e).PosDef := by
    unfold Smat
    exact Matrix.PosDef.posSemidef_add hH hRpd
  have hU : IsUnit (Smat e).det := (Matrix.isUnit_iff_isUnit_det (Smat e)).mp hS.isUnit
  have hSinv : (Smat e)⁻¹.PosDef := posDef_inv_real hS
  have hA : (e.covariance * Hmatᵀ)ᴴ = Hmat * e.covariance := by
    rw [Matrix.conjTranspose_mul]
    have h1 : (Hmatᵀ)ᴴ = Hmat := by
      ext i j
      simp [Matrix.conjTranspose_apply, Matrix.transpose_apply]
    rw [h1, hP.1]
  have hC : ((e.covariance * Hmatᵀ) * (Smat e)⁻¹ * (e.covariance * Hmatᵀ)ᴴ).PosSemidef :=
    hSinv.posSemidef.mul_mul_conjTranspose_same (e.covariance * Hmatᵀ)
  have hcov : (1 - Kmat e * Hmat) * e.covariance
      = e.covariance - (e.covariance * Hmatᵀ) * (Smat e)⁻¹ * ((e.covariance * Hmatᵀ)ᴴ) := by
    rw [hA]
    unfold Kmat
    rw [sub_mul, one_mul, Matrix.mul_assoc (e.covariance * Hmatᵀ * (Smat e)⁻¹) Hmat e.covariance]
  refine ⟨_, by unfold EKFFusionEngine.update; rw [if_pos hU], ?_⟩
  show ((1 - Kmat e * Hmat) * e.covariance : Matrix (Fin 16) (Fin 16) ℝ) 0 0
      + ((1 - Kmat e * Hmat) * e.covariance : Matrix (Fin 16) (Fin 16) ℝ) 1 1
      + ((1 - Kmat e * Hmat) * e.covariance : Matrix (Fin 16) (Fin 16) ℝ) 2 2
      ≤ e.covariance 0 0 + e.covariance 1 1 + e.covariance 2 2
  rw [hcov]
  have h0 := posSemidef_diag_entry_nonneg hC 0
  have h1 := posSemidef_diag_entry_nonneg hC 1
  have h2 := posSemidef_diag_entry_nonneg hC 2
  simp only [Matrix.sub_apply]
  linarith

/-- Witness for C4 at the default engine: the default covariance 0.1 I is
positive semidefinite and the default R is diagonal with positive
entries. -/
theorem C4_witness :
    (defaultEngine.covariance.PosSemidef ∧ defaultEngine.R = Matrix.diagonal rScale ∧
      ∀ j, 0 < rScale j) ∧
    ∃ e2, defaultEngine.update vzero Quat.one = some e2 ∧
      e2.covariance 0 0 + e2.covariance 1 1 + e2.covariance 2 2
        ≤ defaultEngine.covariance 0 0 + defaultEngine.covariance 1 1
          + defaultEngine.covariance 2 2 := by
  have hP : defaultEngine.covariance.PosSemidef := by
    show ((1 / 10 : ℝ) • 1 : Matrix (Fin 16) (Fin 16) ℝ).PosSemidef
    rw [Matrix.smul_one_eq_diagonal]
    exact Matrix.posSemidef_diagonal_iff.mpr fun i => by norm_num
  have hr : ∀ j, 0 < rScale j := by
    intro j
    unfold rScale
    split <;> norm_num
  exact ⟨⟨hP, rfl, hr⟩, C4_covariance_shrinkage defaultEngine rScale hP rfl hr vzero Quat.one⟩


theorem getD_range_map (f : ℕ → Sample) (n k : ℕ) (hk : k < n) :
    ((List.range n).map f).getD k dSample = f k := by
  simp [List.getD_eq_getElem?_getD, List.getElem?_map, List.getElem?_range hk]

theorem stationaryGyro_length : stationaryGyro.length = 200 := by
  unfold stationaryGyro
  rw [List.length_map, List.length_range]

theorem stationaryAccel_length : stationaryAccel.length = 200 := by
  unfold stationaryAccel
  rw [List.length_map, List.length_range]

theorem stationaryGyro_sorted : stationaryGyro.Pairwise fun u w => u.1 ≤ w.1 := by
  unfold stationaryGyro
  refine List.Pairwise.map _ ?_ (List.pairwise_lt_range 200)
  intro i j hij
  show (i : ℝ) / 200 ≤ (j : ℝ) / 200
  have h : (i : ℝ) ≤ j := by exact_mod_cast hij.le
  linarith

theorem stationaryAccel_sorted : stationaryAccel.Pairwise fun u w => u.1 ≤ w.1 := by
  unfold stationaryAccel
  refine List.Pairwise.map _ ?_ (List.pairwise_lt_range 200)
  intro i j hij
  show (i : ℝ) / 200 ≤ (j : ℝ) / 200
  have h : (i : ℝ) ≤ j := by exact_mod_cast hij.le
  linarith

theorem integLoop_step_gyro (p : IMUProcessor) (gl al : List Sample) (g a : ℕ) (st : IntegState)
    (hguard : g < gl.length - 1 ∧ a < al.length - 1)
    (hdt : ¬(min (gl.getD (g + 1) dSample).1 (al.getD (a + 1) dSample).1
      - min (gl.getD g dSample).1 (al.getD a dSample).1 ≤ 0))
    (hbr : (gl.getD (g + 1) dSample).1 ≤ (al.getD (a + 1) dSample).1) :
    integLoop p gl al g a st = integLoop p gl al (g + 1) a
      (integStep p (gl.getD g dSample).2 (al.getD a dSample).2
        (min (gl.getD (g + 1) dSample).1 (al.getD (a + 1) dSample).1
          - min (gl.getD g dSample).1 (al.getD a dSample).1) st) := by
  conv_lhs => rw [integLoop]
  rw [dif_pos hguard]
  dsimp only
  rw [if_neg hdt, if_pos hbr]

theorem integLoop_step_accel (p : IMUProcessor) (gl al : List Sample) (g a : ℕ) (st : IntegState)
    (hguard : g < gl.length - 1 ∧ a < al.length - 1)
    (hdt : ¬(min (gl.getD (g + 1) dSample).1 (al.getD (a + 1) dSample).1
      - min (gl.getD g dSample).1 (al.getD a dSample).1 ≤ 0))
    (hbr : ¬((gl.getD (g + 1) dSample).1 ≤ (al.getD (a + 1) dSample).1)) :
    integLoop p gl al g a st = integLoop p gl al g (a + 1)
      (integStep p (gl.getD g dSample).2 (al.getD a dSample).2
        (min (gl.getD (g + 1) dSample).1 (al.getD (a + 1) dSample).1
          - min (gl.getD g dSample).1 (al.getD a dSample).1) st) := by
  conv_lhs => rw [integLoop]
  rw [dif_pos hguard]
  dsimp only
  rw [if_neg hdt, if_neg hbr]

theorem integStep_stationary (dp dv : V3) (T dt : ℝ) :
    ∃ dp2, integStep defaultIMU (fun _ => 0) ![0, 0, 981 / 100] dt ⟨dp, dv, Quat.one, T⟩
      = ⟨dp2, dv + dt • awSt, Quat.one, T + dt⟩ := by
  have hrotv : dt • ((fun _ => 0 : V3) - defaultIMU.gyro_bias) = (0 : V3) := by
    funext j
    simp [defaultIMU]
  have hacc : (![0, 0, 981 / 100] : V3) - defaultIMU.accel_bias = ![0, 0, 981 / 100] := by
    funext j
    simp [defaultIMU]
  have haw : Quat.apply Quat.one (![0, 0, 981 / 100] : V3) - defaultIMU.gravity = awSt := by
    rw [Quat.apply_one]
    funext j
    fin_cases j <;> norm_num [defaultIMU, defaultGravity, awSt]
  refine ⟨dp + dt • (dv + dt • awSt) + ((1 / 2) * dt * dt) • awSt, ?_⟩
  unfold integStep
  dsimp only
  rw [hrotv, Quat.fromRotvec_zero, Quat.mul_one, hacc, haw]

theorem stationary_loop : ∀ (n g a : ℕ), a ≤ g → g ≤ a + 1 → g ≤ 199 → a ≤ 198 →
    (199 - g) + (198 - a) = n → ∀ (dp dv : V3) (T : ℝ),
    ∃ dp2 T2, integLoop defaultIMU stationaryGyro stationaryAccel g a ⟨dp, dv, Quat.one, T⟩
      = ⟨dp2, dv + (((n : ℕ) : ℝ) * (1 / 200)) • awSt, Quat.one, T2⟩ := by
  intro n
  induction n with
  | zero =>
      intro g a h1 h2 h3 h4 h5 dp dv T
      have hg : g = 199 := by omega
      have ha : a = 198 := by omega
      subst hg
      subst ha
      have hguard : ¬(199 < stationaryGyro.length - 1 ∧ 198 < stationaryAccel.length - 1) := by
        intro hc
        rw [stationaryGyro_length] at hc
        omega
      refine ⟨dp, T, ?_⟩
      rw [integLoop_exit _ _ _ _ _ _ hguard]
      have h0 : dv + (((0 : ℕ) : ℝ) * (1 / 200)) • awSt = dv := by
        norm_num
      rw [h0]
  | succ n ih =>
      intro g a h1 h2 h3 h4 h5 dp dv T
      have hg198 : g ≤ 198 := by omega
      have hguard : g < stationaryGyro.length - 1 ∧ a < stationaryAccel.length - 1 := by
        rw [stationaryGyro_length, stationaryAccel_length]
        omega
      have hcase : g = a ∨ g = a + 1 := by omega
      rcases hcase with rfl | rfl
      · -- g = a: the next gyro stamp equals the next accel stamp, gyro advances
        have hgg : stationaryGyro.getD g dSample = (((g : ℕ) : ℝ) / 200, fun _ => 0) := by
          unfold stationaryGyro
          exact getD_range_map _ 200 g (by omega)
        have hgg1 : stationaryGyro.getD (g + 1) dSample
            = (((g + 1 : ℕ) : ℝ) / 200, fun _ => 0) := by
          unfold stationaryGyro
          exact getD_range_map _ 200 (g + 1) (by omega)
        have haa : stationaryAccel.getD g dSample
            = (((g : ℕ) : ℝ) / 200, ![0, 0, 981 / 100]) := by
          unfold stationaryAccel
          exact getD_range_map _ 200 g (by omega)
        have haa1 : stationaryAccel.getD (g + 1) dSample
            = (((g + 1 : ℕ) : ℝ) / 200, ![0, 0, 981 / 100]) := by
          unfold stationaryAccel
          exact getD_range_map _ 200 (g + 1) (by omega)
        have hdt : ¬(min (stationaryGyro.getD (g + 1) dSample).1
            (stationaryAccel.getD (g + 1) dSample).1
            - min (stationaryGyro.getD g dSample).1 (stationaryAccel.getD g dSample).1 ≤ 0) := by
          rw [hgg, hgg1, haa, haa1]
          dsimp only
          rw [min_self, min_self]
          push_cast
          intro hc
          linarith
        have hbr : (stationaryGyro.getD (g + 1) dSample).1
            ≤ (stationaryAccel.getD (g + 1) dSample).1 := le_of_eq (by rw [hgg1, haa1])
        rw [integLoop_step_gyro _ _ _ _ _ _ hguard hdt hbr, hgg, hgg1, haa, haa1]
        dsimp only
        have hdtv : min (((g + 1 : ℕ) : ℝ) / 200) (((g + 1 : ℕ) : ℝ) / 200)
            - min (((g : ℕ) : ℝ) / 200) (((g : ℕ) : ℝ) / 200) = 1 / 200 := by
          rw [min_self, min_self]
          push_cast
          ring
        rw [hdtv]
        obtain ⟨dpX, hstep⟩ := integStep_stationary dp dv T (1 / 200)
        rw [hstep]
        obtain ⟨dp2, T2, hrec⟩ := ih (g + 1) g (by omega) (by omega) (by omega) (by omega)
          (by omega) dpX (dv + (1 / 200 : ℝ) • awSt) (T + 1 / 200)
        refine ⟨dp2, T2, ?_⟩
        rw [hrec]
        have hco : dv + (1 / 200 : ℝ) • awSt + (((n : ℕ) : ℝ) * (1 / 200)) • awSt
            = dv + (((n + 1 : ℕ) : ℝ) * (1 / 200)) • awSt := by
          rw [add_assoc, ← add_smul]
          have hsc : (1 / 200 : ℝ) + ((n : ℕ) : ℝ) * (1 / 200)
              = ((n + 1 : ℕ) : ℝ) * (1 / 200) := by
            push_cast
            ring
          rw [hsc]
        rw [hco]
      · -- g = a + 1: the next accel stamp is strictly earlier, accel advances
        have hgg : stationaryGyro.getD (a + 1) dSample
            = (((a + 1 : ℕ) : ℝ) / 200, fun _ => 0) := by
          unfold stationaryGyro
          exact getD_range_map _ 200 (a + 1) (by omega)
        have hgg1 : stationaryGyro.getD (a + 1 + 1) dSample
            = (((a + 1 + 1 : ℕ) : ℝ) / 200, fun _ => 0) := by
          unfold stationaryGyro
          exact getD_range_map _ 200 (a + 1 + 1) (by omega)
        have haa : stationaryAccel.getD a dSample
            = (((a : ℕ) : ℝ) / 200, ![0, 0, 981 / 100]) := by
          unfold stationaryAccel
          exact getD_range_map _ 200 a (by omega)
        have haa1 : stationaryAccel.getD (a + 1) dSample
            = (((a + 1 : ℕ) : ℝ) / 200, ![0, 0, 981 / 100]) := by
          unfold stationaryAccel
          exact getD_range_map _ 200 (a + 1) (by omega)
        have hm1 : min (((a + 1 + 1 : ℕ) : ℝ) / 200) (((a + 1 : ℕ) : ℝ) / 200)
            = ((a + 1 : ℕ) : ℝ) / 200 := min_eq_right (by push_cast; linarith)
        have hm2 : min (((a + 1 : ℕ) : ℝ) / 200) (((a : ℕ) : ℝ) / 200)
            = ((a : ℕ) : ℝ) / 200 := min_eq_right (by push_cast; linarith)
        have hdt : ¬(min (stationaryGyro.getD (a + 1 + 1) dSample).1
            (stationaryAccel.getD (a + 1) dSample).1
            - min (stationaryGyro.getD (a + 1) dSample).1
              (stationaryAccel.getD a dSample).1 ≤ 0) := by
          rw [hgg, hgg1, haa, haa1]
          dsimp only
          rw [hm1, hm2]
          push_cast
          intro hc
          linarith
        have hbrn : ¬((stationaryGyro.getD (a + 1 + 1) dSample).1
            ≤ (stationaryAccel.getD (a + 1) dSample).1) := by
          rw [hgg1, haa1]
          dsimp only
          push_cast
          intro hc
          linarith
        rw [integLoop_step_accel _ _ _ _ _ _ hguard hdt hbrn, hgg, hgg1, haa, haa1]
        dsimp only
        have hdtv : min (((a + 1 + 1 : ℕ) : ℝ) / 200) (((a + 1 : ℕ) : ℝ) / 200)
            - min (((a + 1 : ℕ) : ℝ) / 200) (((a : ℕ) : ℝ) / 200) = 1 / 200 := by
          rw [hm1, hm2]
          push_cast
          ring
        rw [hdtv]
        obtain ⟨dpX, hstep⟩ := integStep_stationary dp dv T (1 / 200)
        rw [hstep]
        obtain ⟨dp2, T2, hrec⟩ := ih (a + 1) (a + 1) (by omega) (by omega) (by omega) (by omega)
          (by omega) dpX (dv + (1 / 200 : ℝ) • awSt) (T + 1 / 200)
        refine ⟨dp2, T2, ?_⟩
        rw [hrec]
        have hco : dv + (1 / 200 : ℝ) • awSt + (((n : ℕ) : ℝ) * (1 / 200)) • awSt
            = dv + (((n + 1 : ℕ) : ℝ) * (1 / 200)) • awSt := by
          rw [add_assoc, ← add_smul]
          have hsc : (1 / 200 : ℝ) + ((n : ℕ) : ℝ) * (1 / 200)
              = ((n + 1 : ℕ) : ℝ) * (1 / 200) := by
            push_cast
            ring
          rw [hsc]
        rw [hco]

/-- C2: the stationary 200 Hz burst is NOT integrated to zero deltas: the
returned delta_velocity has z-component 389457/10000 = 38.9457 m/s, far
from 0.  Two compounding defects: `accel_world = rot.apply(accel) -
gravity` ADDS 9.81 for a specific-force reading (the gravity vector is
`[0,0,-9.81]`), and the merge loop advances only one stream index per
iteration, so the aligned 200-sample streams yield 397 integration steps
of dt = 1/200 instead of 199. -/
theorem C2_stationary_burst_not_neutral :
    (defaultIMU.preintegrate stationaryGyro stationaryAccel none).2.1 2 = 389457 / 10000 ∧
      38 < (defaultIMU.preintegrate stationaryGyro stationaryAccel none).2.1 2 := by
  obtain ⟨dp2, T2, hloop⟩ := stationary_loop 397 0 0 (by omega) (by omega) (by omega) (by omega)
    (by omega) (fun _ => 0) (fun _ => 0) 0
  have hpre : defaultIMU.preintegrate stationaryGyro stationaryAccel none
      = (dp2, (fun _ => 0 : V3) + (((397 : ℕ) : ℝ) * (1 / 200)) • awSt,
          Quat.mul (Quat.inv Quat.one) Quat.one) := by
    unfold IMUProcessor.preintegrate
    dsimp only [Option.getD]
    rw [sortByTime_eq_self stationaryGyro_sorted, sortByTime_eq_self stationaryAccel_sorted,
      hloop]
  have hval : (defaultIMU.preintegrate stationaryGyro stationaryAccel none).2.1 2
      = 389457 / 10000 := by
    rw [hpre]
    show (((fun _ => (0 : ℝ)) + (((397 : ℕ) : ℝ) * (1 / 200)) • awSt : V3)) 2 = 389457 / 10000
    have haw2 : awSt 2 = 981 / 50 := rfl
    simp only [Pi.add_apply, Pi.smul_apply, smul_eq_mul, haw2]
    push_cast
    norm_num
  exact ⟨hval, by rw [hval]; norm_num⟩


theorem obsFin_lt_ten : ∀ m : Fin 7, ((obsFin m : Fin 16) : ℕ) < 10 := by decide

theorem Fmat_apply_high (dt : ℝ) (i j : Fin 16) (hi : 10 ≤ (i : ℕ)) :
    Fmat dt i j = if i = j then 1 else 0 := by
  unfold Fmat
  rw [Matrix.of_apply]
  rcases eq_or_ne i j with rfl | hne
  · rw [if_pos rfl, if_pos rfl]
  · rw [if_neg hne, if_neg (by omega), if_neg hne]

theorem Fmat_apply_highcol (dt : ℝ) (i j : Fin 16) (hj : 10 ≤ (j : ℕ)) :
    Fmat dt i j = if i = j then 1 else 0 := by
  unfold Fmat
  rw [Matrix.of_apply]
  rcases eq_or_ne i j with rfl | hne
  · rw [if_pos rfl, if_pos rfl]
  · rw [if_neg hne, if_neg (by omega), if_neg hne]

theorem FPFt_cross (dt : ℝ) (P : Matrix (Fin 16) (Fin 16) ℝ)
    (hP : ∀ i j : Fin 16,
      (10 ≤ (i : ℕ) ∧ (j : ℕ) < 10) ∨ ((i : ℕ) < 10 ∧ 10 ≤ (j : ℕ)) → P i j = 0)
    (i j : Fin 16)
    (hij : (10 ≤ (i : ℕ) ∧ (j : ℕ) < 10) ∨ ((i : ℕ) < 10 ∧ 10 ≤ (j : ℕ))) :
    (Fmat dt * P * (Fmat dt)ᵀ) i j = 0 := by
  rcases hij with ⟨hi, hj⟩ | ⟨hi, hj⟩
  · have hFP : ∀ l, (Fmat dt * P) i l = P i l := by
      intro l
      rw [Matrix.mul_apply, Finset.sum_eq_single i]
      · rw [Fmat_apply_high dt i i hi, if_pos rfl, one_mul]
      · intro k _ hk
        rw [Fmat_apply_high dt i k hi, if_neg (Ne.symm hk), zero_mul]
      · intro hmem
        exact absurd (Finset.mem_univ _) hmem
    rw [Matrix.mul_apply]
    refine Finset.sum_eq_zero fun l _ => ?_
    rw [Matrix.transpose_apply]
    by_cases hl : (l : ℕ) < 10
    · rw [hFP l, hP i l (Or.inl ⟨hi, hl⟩), zero_mul]
    · rw [Fmat_apply_highcol dt j l (by omega),
        if_neg (by intro hc; rw [hc] at hj; omega), mul_zero]
  · rw [Matrix.mul_apply, Finset.sum_eq_single j]
    · rw [Matrix.transpose_apply, Fmat_apply_high dt j j hj, if_pos rfl, mul_one,
        Matrix.mul_apply]
      refine Finset.sum_eq_zero fun k _ => ?_
      by_cases hk : (k : ℕ) < 10
      · rw [hP k j (Or.inr ⟨hk, hj⟩), mul_zero]
      · rw [Fmat_apply_highcol dt i k (by omega),
          if_neg (by intro hc; rw [hc] at hi; omega), zero_mul]
    · intro l _ hl
      rw [Matrix.transpose_apply, Fmat_apply_high dt j l hj,
        if_neg (fun hc => hl hc.symm), mul_zero]
    · intro hmem
      exact absurd (Finset.mem_univ _) hmem

theorem biasInv_default : BiasInv defaultEngine := by
  refine ⟨?_, ?_, rfl⟩
  · intro i hi
    show defaultState i = 0
    unfold defaultState
    rw [if_neg (by omega)]
  · intro i j hij
    have hne : i ≠ j := by
      rcases hij with ⟨h1, h2⟩ | ⟨h1, h2⟩ <;> (intro hc; rw [hc] at h1; omega)
    show ((1 / 10 : ℝ) • (1 : Matrix (Fin 16) (Fin 16) ℝ)) i j = 0
    rw [Matrix.smul_apply, Matrix.one_apply_ne hne, smul_zero]

theorem biasInv_predict (e : EKFFusionEngine) (h : BiasInv e) (dp dv : V3) (dq : Quat)
    (dt : ℝ) : BiasInv (stepCall e (.predict dp dv dq dt)) := by
  show BiasInv ((e.predict dp dv dq dt).getD e)
  unfold EKFFusionEngine.predict
  by_cases hq : Quat.normSq (stateQuat e.state) = 0
  · rw [if_pos hq]
    exact h
  · rw [if_neg hq]
    obtain ⟨hs, hc, hQ⟩ := h
    refine ⟨?_, ?_, hQ⟩
    · intro i hi
      show renormQuatBlock (predictState1 e dp dv dq dt) i = 0
      rw [renormQuatBlock_low _ _ (by omega), predictState1_high e dp dv dq dt i hi, hs i hi]
    · intro i j hij
      show (Fmat dt * e.covariance * (Fmat dt)ᵀ + dt • e.Q) i j = 0
      have hne : i ≠ j := by
        rcases hij with ⟨h1, h2⟩ | ⟨h1, h2⟩ <;> (intro hc; rw [hc] at h1; omega)
      have hQ0 : defaultQ i j = 0 := by
        unfold defaultQ
        rw [Matrix.diagonal_apply_ne _ hne]
      rw [Matrix.add_apply, Matrix.smul_apply, FPFt_cross dt e.covariance hc i j hij, hQ, hQ0]
      simp

theorem biasInv_update (e : EKFFusionEngine) (h : BiasInv e) (mp : V3) (mr : Quat) :
    BiasInv (stepCall e (.update mp mr)) := by
  show BiasInv ((e.update mp mr).getD e)
  unfold EKFFusionEngine.update
  by_cases hU : IsUnit (Smat e).det
  · rw [if_pos hU]
    obtain ⟨hs, hc, hQ⟩ := h
    have hK : ∀ (i : Fin 16), 10 ≤ (i : ℕ) → ∀ m : Fin 7, Kmat e i m = 0 := by
      intro i hi m
      rw [Kmat_apply]
      refine Finset.sum_eq_zero fun l _ => ?_
      rw [hc i (obsFin l) (Or.inl ⟨hi, obsFin_lt_ten l⟩), zero_mul]
    refine ⟨?_, ?_, hQ⟩
    · intro i hi
      show renormQuatBlock (e.state + Kmat e *ᵥ yvec e mp mr) i = 0
      rw [renormQuatBlock_low _ _ (by omega), Pi.add_apply, hs i hi]
      have hKv : (Kmat e *ᵥ yvec e mp mr) i = 0 := by
        show (∑ m : Fin 7, Kmat e i m * yvec e mp mr m) = 0
        refine Finset.sum_eq_zero fun m _ => ?_
        rw [hK i hi m, zero_mul]
      rw [hKv, add_zero]
    · intro i j hij
      show ((1 - Kmat e * Hmat) * e.covariance : Matrix (Fin 16) (Fin 16) ℝ) i j = 0
      have hrw : (1 - Kmat e * Hmat) * e.covariance
          = e.covariance - Kmat e * (Hmat * e.covariance) := by
        rw [sub_mul, one_mul, Matrix.mul_assoc]
      rw [hrw, Matrix.sub_apply]
      rcases hij with ⟨h1, h2⟩ | ⟨h1, h2⟩
      · have hz : (Kmat e * (Hmat * e.covariance)) i j = 0 := by
          rw [Matrix.mul_apply]
          refine Finset.sum_eq_zero fun m _ => ?_
          rw [hK i h1 m, zero_mul]
        rw [hc i j (Or.inl ⟨h1, h2⟩), hz, sub_zero]
      · have hz : (Kmat e * (Hmat * e.covariance)) i j = 0 := by
          rw [Matrix.mul_apply]
          refine Finset.sum_eq_zero fun m _ => ?_
          rw [Hmat_mul_apply, hc (obsFin m) j (Or.inr ⟨obsFin_lt_ten m, h2⟩), mul_zero]
        rw [hc i j (Or.inr ⟨h1, h2⟩), hz, sub_zero]
  · rw [if_neg hU]
    exact h

/-- C10: on a default-constructed engine, the gyro-bias and accel-bias
state components (10..15) are exactly zero after every finite sequence of
predict and update calls: the state-transition matrix only couples
position to velocity, the measurement matrix has zero bias columns, and
the covariance never develops coupling between the bias block and the
observed block, so the bias rows of the Kalman gain are identically
zero. -/
theorem C10_bias_freeze (calls : List FilterCall) :
    ∀ i : Fin 3, (calls.foldl stepCall defaultEngine).state (gbIdx i) = 0 ∧
      (calls.foldl stepCall defaultEngine).state (abIdx i) = 0 := by
  have key : ∀ (cs : List FilterCall) (e : EKFFusionEngine), BiasInv e →
      BiasInv (cs.foldl stepCall e) := by
    intro cs
    induction cs with
    | nil => intro e he; exact he
    | cons c cs ih =>
        intro e he
        rw [List.foldl_cons]
        refine ih _ ?_
        cases c with
        | predict dp dv dq dt => exact biasInv_predict e he dp dv dq dt
        | update mp mr => exact biasInv_update e he mp mr
  intro i
  obtain ⟨hs, hcov, hq⟩ := key calls defaultEngine biasInv_default
  have hg : ((gbIdx i : Fin 16) : ℕ) = (i : ℕ) + 10 := rfl
  have ha : ((abIdx i : Fin 16) : ℕ) = (i : ℕ) + 13 := rfl
  exact ⟨hs (gbIdx i) (by omega), hs (abIdx i) (by omega)⟩

end
